import Mathlib

/-!
Verification development for the spatial-index / peak-consolidation core of
storm-analysis (`sa_library/ia_utilities.c`).

The C code is shallowly embedded: C doubles become rationals (the claims are
about exact geometric comparisons), the kd-tree becomes an inductive binary
tree, the in-place status arrays become functions `ℕ → PeakStatus` updated
functionally, and the result accumulator (a linked list built by prepending,
`rlist_insert` with `dist_sq = -1`) becomes a Lean list built by prepending.
All callers in this file use the unordered accumulator (`ordered = 0` in C),
so the ordered-insert branch of `rlist_insert` is not modelled.
-/

set_option linter.unusedVariables false

/-- A 2D point (the consolidation code always builds 2-dimensional trees,
`createKDTree` calls `kd_create(2)`). -/
structure Pt where
  x : ℚ
  y : ℚ
deriving DecidableEq

/-- `pos[d]` for a 2D coordinate vector: axis 0 is x, any other axis is y
(the code only ever produces axes 0 and 1). -/
def coord (p : Pt) (d : ℕ) : ℚ := if d = 0 then p.x else p.y

/-- Set coordinate `d` of a 2D vector. -/
def setc (p : Pt) (d : ℕ) (v : ℚ) : Pt :=
  if d = 0 then { p with x := v } else { p with y := v }

/-- Squared Euclidean distance, as computed by the `SQ` loops in the C code. -/
def sqDist (p q : Pt) : ℚ := (p.x - q.x) * (p.x - q.x) + (p.y - q.y) * (p.y - q.y)

/-- `struct kdhyperrect` for dimension 2: per-axis minimum and maximum. -/
structure Rect where
  mn : Pt
  mx : Pt
deriving DecidableEq

/-- `hyperrect_extend`: grow the box to contain `p` (per-axis min/max update). -/
def hyperrect_extend (r : Rect) (p : Pt) : Rect :=
  { mn := ⟨if p.x < r.mn.x then p.x else r.mn.x, if p.y < r.mn.y then p.y else r.mn.y⟩
    mx := ⟨if p.x > r.mx.x then p.x else r.mx.x, if p.y > r.mx.y then p.y else r.mx.y⟩ }

/-- One axis of `hyperrect_dist_sq`. -/
def axisDistSq (mn mx q : ℚ) : ℚ :=
  if q < mn then (mn - q) * (mn - q) else if q > mx then (mx - q) * (mx - q) else 0

/-- `hyperrect_dist_sq`: squared distance from a point to the box. -/
def hyperrect_dist_sq (r : Rect) (q : Pt) : ℚ :=
  axisDistSq r.mn.x r.mx.x q.x + axisDistSq r.mn.y r.mx.y q.y

/-- `struct kdnode`: position, split axis, payload (`createKDTree` stores the
peak index `i` in the data pointer), and the two children. `leaf` is the null
pointer. -/
inductive KDNode where
  | leaf : KDNode
  | node (pos : Pt) (dir : ℕ) (data : ℕ) (left right : KDNode) : KDNode
deriving DecidableEq

/-- `insert_rec` (dim = 2): descend comparing `pos[node->dir]`, strictly less
goes left, otherwise right; the axis cycles `(dir + 1) % 2`; a new leaf node
records the axis passed down. -/
def insert_rec : KDNode → Pt → ℕ → ℕ → KDNode
  | .leaf, q, data, dir => .node q dir data .leaf .leaf
  | .node npos ndir ndata l r, q, data, _ =>
    if coord q ndir < coord npos ndir then
      .node npos ndir ndata (insert_rec l q data ((ndir + 1) % 2)) r
    else
      .node npos ndir ndata l (insert_rec r q data ((ndir + 1) % 2))

/-- `struct kdtree` (dim fixed to 2): root node and the bounding region,
which is null until the first insertion. -/
structure KDTree where
  root : KDNode
  rect : Option Rect
deriving DecidableEq

/-- `kd_create(2)`: empty tree. -/
def kd_create : KDTree := ⟨.leaf, none⟩

/-- `kd_insert`: insert at the root with axis 0, then create or extend the
bounding region. -/
def kd_insert (t : KDTree) (q : Pt) (data : ℕ) : KDTree :=
  { root := insert_rec t.root q data 0
    rect := some (match t.rect with
      | none => ⟨q, q⟩
      | some r => hyperrect_extend r q) }

/-- The points stored in a subtree, as (payload, position) pairs. -/
def treePoints : KDNode → List (ℕ × Pt)
  | .leaf => []
  | .node p _ d l r => (d, p) :: (treePoints l ++ treePoints r)

/-- Pair each list element with its index starting at `n` (models the C loop
`for(i=0;i<n;i++) kd_insert(kd, pos_i, (void*)(intptr_t)i)`). -/
def withIdx : ℕ → List Pt → List (ℕ × Pt)
  | _, [] => []
  | n, p :: ps => (n, p) :: withIdx (n + 1) ps

/-- `createKDTree`: build a 2D tree inserting the points in order; the payload
of point `i` is the index `i`. -/
def createKDTree (pts : List Pt) : KDTree :=
  (withIdx 0 pts).foldl (fun t e => kd_insert t e.2 e.1) kd_create

/-- `find_nearest` (the range-query worker) specialised to `ordered = 0` as
all callers in this file use it: if the node is within `range` (inclusive,
`dist_sq <= SQ(range)`) it is prepended to the accumulator; the side of the
splitting plane containing the query (`dx <= 0` means left) is always
searched; the other side only if `fabs(dx) < range` (strict). -/
def find_nearest : KDNode → Pt → ℚ → List (ℕ × Pt) → List (ℕ × Pt)
  | .leaf, _, _, acc => acc
  | .node npos ndir ndata l r, q, range, acc =>
    let acc1 := if sqDist npos q ≤ range * range then (ndata, npos) :: acc else acc
    let dx := coord q ndir - coord npos ndir
    if dx ≤ 0 then
      let acc2 := find_nearest l q range acc1
      if |dx| < range then find_nearest r q range acc2 else acc2
    else
      let acc2 := find_nearest r q range acc1
      if |dx| < range then find_nearest l q range acc2 else acc2

/-- `kd_nearest_range`: run `find_nearest` from the root with an empty result
list. The returned list is the result set in its iteration order. -/
def kd_nearest_range (t : KDTree) (q : Pt) (range : ℚ) : List (ℕ × Pt) :=
  find_nearest t.root q range []

/-- `kd_nearest_i`: branch-and-bound nearest-neighbour search. The nearer
child (query side of the splitting plane) is searched first with the box
sliced at the node's coordinate, then the node itself is compared (strict
`<`), then the farther child is searched only if the sliced box could contain
something closer than the current best. Recursing into a `leaf` child returns
the state unchanged, which matches the C null-pointer guards. -/
def kd_nearest_i : KDNode → Pt → (ℕ × Pt) → ℚ → Rect → ((ℕ × Pt) × ℚ)
  | .leaf, _, best, bd, _ => (best, bd)
  | .node npos ndir ndata l r, q, best, bd, rect =>
    let dummy := coord q ndir - coord npos ndir
    if dummy ≤ 0 then
      let res1 := kd_nearest_i l q best bd { rect with mx := setc rect.mx ndir (coord npos ndir) }
      let ds := sqDist npos q
      let res2 := if ds < res1.2 then ((ndata, npos), ds) else res1
      let frect : Rect := { rect with mn := setc rect.mn ndir (coord npos ndir) }
      if hyperrect_dist_sq frect q < res2.2 then kd_nearest_i r q res2.1 res2.2 frect else res2
    else
      let res1 := kd_nearest_i r q best bd { rect with mn := setc rect.mn ndir (coord npos ndir) }
      let ds := sqDist npos q
      let res2 := if ds < res1.2 then ((ndata, npos), ds) else res1
      let frect : Rect := { rect with mx := setc rect.mx ndir (coord npos ndir) }
      if hyperrect_dist_sq frect q < res2.2 then kd_nearest_i l q res2.1 res2.2 frect else res2

/-- `kd_nearest`: `none` models the C null return (no bounding region, i.e.
nothing was inserted). Otherwise the first guess is the root and the search
refines it; the single-entry result set is modelled as `some`. -/
def kd_nearest (t : KDTree) (q : Pt) : Option (ℕ × Pt) :=
  match t.rect, t.root with
  | none, _ => none
  | some _, .leaf => none
  | some rect, .node npos ndir ndata l r =>
    some (kd_nearest_i (.node npos ndir ndata l r) q (ndata, npos) (sqDist npos q) rect).1

/-- Peak status. `Modelled from the spec:` the numeric constants RUNNING,
CONVERGED and ERROR come from `multi_fit.h`, which is not part of the visible
sources; the spec fixes the status as the closed enum {RUNNING, CONVERGED,
ERROR}, and the code only compares statuses for equality and assigns them, so
an inductive enum is a faithful model. -/
inductive PeakStatus where
  | RUNNING : PeakStatus
  | CONVERGED : PeakStatus
  | ERROR : PeakStatus
deriving DecidableEq

open PeakStatus

/-- Position of peak `i` in the parallel coordinate arrays (`x[i]`, `y[i]`).
Out-of-range indices never occur in the modelled loops. -/
def posAt (pts : List Pt) (i : ℕ) : Pt := pts.getD i ⟨0, 0⟩

/-- The CONVERGED-to-RUNNING propagation loop shared by `markDimmerPeaks` and
`markLowSignificancePeaks`: walk a result set and flip every CONVERGED
neighbour to RUNNING. -/
def flipConverged (res : List (ℕ × Pt)) (st : ℕ → PeakStatus) : ℕ → PeakStatus :=
  res.foldl (fun s e => if s e.1 = CONVERGED then Function.update s e.1 RUNNING else s) st

/-- Loop body of `markDimmerPeaks` for peak `i`: skip ERROR peaks; range-query
within `r_removal`; skip if fewer than 2 results; if some result is strictly
brighter, set status `i` to ERROR, count it, and flip CONVERGED peaks in the
`r_neighbors` range result to RUNNING. -/
def markDimmerStep (kd : KDTree) (pts : List Pt) (h : ℕ → ℚ) (r_removal r_neighbors : ℚ)
    (acc : (ℕ → PeakStatus) × ℕ) (i : ℕ) : (ℕ → PeakStatus) × ℕ :=
  let st := acc.1
  if st i = ERROR then acc
  else
    let set_r := kd_nearest_range kd (posAt pts i) r_removal
    if set_r.length < 2 then acc
    else if set_r.any (fun e => h e.1 > h i) then
      let st1 := Function.update st i ERROR
      let st2 := flipConverged (kd_nearest_range kd (posAt pts i) r_neighbors) st1
      (st2, acc.2 + 1)
    else acc

/-- `markDimmerPeaks`: build the tree over all peak positions once, visit the
peaks in index order, and return the updated status array together with the
number of peaks marked ERROR. -/
def markDimmerPeaks (pts : List Pt) (h : ℕ → ℚ) (st : ℕ → PeakStatus)
    (r_removal r_neighbors : ℚ) : (ℕ → PeakStatus) × ℕ :=
  let kd := createKDTree pts
  (List.range pts.length).foldl (markDimmerStep kd pts h r_removal r_neighbors) (st, 0)

/-- Loop body of `markLowSignificancePeaks` for peak `i`: skip ERROR peaks,
skip peaks with `sig[i] > min_sig`, otherwise mark ERROR, count, and flip
CONVERGED peaks in the `r_neighbors` range result to RUNNING. -/
def markLowSigStep (kd : KDTree) (pts : List Pt) (sig : ℕ → ℚ) (min_sig r_neighbors : ℚ)
    (acc : (ℕ → PeakStatus) × ℕ) (i : ℕ) : (ℕ → PeakStatus) × ℕ :=
  let st := acc.1
  if st i = ERROR then acc
  else if sig i > min_sig then acc
  else
    let st1 := Function.update st i ERROR
    let st2 := flipConverged (kd_nearest_range kd (posAt pts i) r_neighbors) st1
    (st2, acc.2 + 1)

/-- `markLowSignificancePeaks`. -/
def markLowSignificancePeaks (pts : List Pt) (sig : ℕ → ℚ) (st : ℕ → PeakStatus)
    (min_sig r_neighbors : ℚ) : (ℕ → PeakStatus) × ℕ :=
  let kd := createKDTree pts
  (List.range pts.length).foldl (markLowSigStep kd pts sig min_sig r_neighbors) (st, 0)

/-- Loop body of `runningIfHasNeighbors` for current peak `i`: skip RUNNING
and ERROR peaks; set status to RUNNING when the range query over the new-peak
tree returns at least one result. -/
def runningStep (kd : KDTree) (cpts : List Pt) (radius : ℚ)
    (st : ℕ → PeakStatus) (i : ℕ) : ℕ → PeakStatus :=
  if st i = RUNNING ∨ st i = ERROR then st
  else if (kd_nearest_range kd (posAt cpts i) radius).length > 0 then
    Function.update st i RUNNING
  else st

/-- `runningIfHasNeighbors`: the tree is built over the new peaks, the loop
runs over the current peaks. -/
def runningIfHasNeighbors (cpts npts : List Pt) (st : ℕ → PeakStatus)
    (radius : ℚ) : ℕ → PeakStatus :=
  let kd := createKDTree npts
  (List.range cpts.length).foldl (runningStep kd cpts radius) st

/-- The scan loop of `nearestKDTree` for one query point: start from
`min_i = -1`, `min_dd = radius*radius + 0.1` and keep the first result
attaining the strictly smallest squared distance. -/
def scanMin (q : Pt) (radius : ℚ) (res : List (ℕ × Pt)) : ℤ × ℚ :=
  res.foldl
    (fun acc e =>
      let dd := sqDist e.2 q
      if dd < acc.2 then ((e.1 : ℤ), dd) else acc)
    (-1, radius * radius + 1 / 10)

/-- `nearestKDTree` output for one query point, as the pair
(`index[i]`, squared distance). The C code writes `dist[i] = sqrt(min_dd)` on
a match; since `sqrt` is a monotone bijection on nonnegatives (and
`sqrt 0 = 0`), the real-valued distance output is modelled by the exact
squared distance `min_dd`, and the no-match sentinel pair
`dist[i] = -1.0, index[i] = -1` is modelled as `(-1, -1)` (a found squared
distance is always `≥ 0`, so `-1` unambiguously encodes the sentinel). -/
def nearestMatch (kd : KDTree) (q : Pt) (radius : ℚ) : ℤ × ℚ :=
  let m := scanMin q radius (kd_nearest_range kd q radius)
  if 0 ≤ m.1 then (m.1, m.2) else (-1, -1)

/-- `nearestKDTree` over a list of query points: the parallel output arrays,
one (`index`, squared distance) pair per query point. -/
def nearestKDTree (kd : KDTree) (qs : List Pt) (radius : ℚ) : List (ℤ × ℚ) :=
  qs.map (fun q => nearestMatch kd q radius)

/-- Truncation toward zero of a rational, the C `(int)` conversion of a
nonnegative-or-negative double. -/
def ratTrunc (v : ℚ) : ℤ := if v < 0 then ⌈v⌉ else ⌊v⌋

/-- The integers from `a` to `b` inclusive (empty when `b < a`): the index
set of a C loop `for(i=a;i<=b;i++)`. -/
def intRange (a b : ℤ) : List ℤ :=
  (List.range (b + 1 - a).toNat).map (fun k : ℕ => a + (k : ℤ))

/-- `struct flmData`. The image stack and the claimed mask are addressed as
in C: plane index, then flat offset `y*xsize + x`. -/
structure FlmData where
  margin : ℤ
  n_peaks : ℕ
  z_range : ℤ
  xsize : ℤ
  ysize : ℤ
  zsize : ℤ
  radius : ℚ
  threshold : ℚ
  z_values : ℤ → ℚ
  taken : ℤ → ℤ → ℤ
  images : ℤ → ℤ → ℚ

/-- `isLocalMaxima`: search the cylinder (disk of radius `radius` in xy, the
given z slab) for a disqualifying neighbour. A neighbour with
`yi <= cy && xi <= cx` (componentwise) disqualifies only if strictly brighter
(`> cur`); any other neighbour disqualifies at `>= cur`. `rr` is the C
`int rr = radius * radius` truncation. Returns `true` (C `1`) when no
neighbour disqualifies. -/
def isLocalMaxima (d : FlmData) (cur : ℚ) (sz ez sy cy ey sx cx ex : ℤ) : Bool :=
  let rr := ratTrunc (d.radius * d.radius)
  (intRange sz ez).all fun zi =>
    (intRange sy ey).all fun yi =>
      (intRange sx ex).all fun xi =>
        let dy := (yi - cy) * (yi - cy)
        let dx := (xi - cx) * (xi - cx)
        if dx + dy ≤ rr then
          if yi ≤ cy ∧ xi ≤ cx then
            decide (¬ d.images zi (yi * d.xsize + xi) > cur)
          else
            decide (¬ d.images zi (yi * d.xsize + xi) ≥ cur)
        else true

/-- The state threaded through the `findLocalMaxima` scan: number of peaks
written so far, the updated claimed mask, the entries written to the output
arrays `(z_value, y, x, h)` in write order, and whether the scan hit the
caller-supplied cap and returned early. -/
structure FlmState where
  np : ℕ
  taken : ℤ → ℤ → ℤ
  out : List (ℚ × ℤ × ℤ × ℚ)
  halted : Bool

/-- The y search range of `findLocalMaxima`: `sy = yi - radius` (C double to
int truncation) clamped at 0, `ey = yi + radius` truncated, clamped at
`ysize - 1`. -/
def flmYRange (d : FlmData) (yi : ℤ) : ℤ × ℤ :=
  (max 0 (ratTrunc ((yi : ℚ) - d.radius)),
   min (ratTrunc ((yi : ℚ) + d.radius)) (d.ysize - 1))

/-- The x search range of `findLocalMaxima`: `sx = xi - ceil(radius)` clamped
at 0, `ex = xi + ceil(radius)` clamped at `xsize - 1`. -/
def flmXRange (d : FlmData) (xi : ℤ) : ℤ × ℤ :=
  (max 0 (xi - ⌈d.radius⌉), min (xi + ⌈d.radius⌉) (d.xsize - 1))

/-- The z search range of `findLocalMaxima`: `zi ± z_range` clamped to
`[0, zsize-1]`. -/
def flmZRange (d : FlmData) (zi : ℤ) : ℤ × ℤ :=
  (max 0 (zi - d.z_range), min (zi + d.z_range) (d.zsize - 1))

/-- One pixel visit of the `findLocalMaxima` scan. After the early return
(`halted`) the remaining pixels are skipped. A pixel above threshold and not
claimed is tested with `isLocalMaxima`; on success it is claimed and its
`(z_value, y, x, h)` entry appended; afterwards (in either case) the scan
halts if `np >= n_peaks`. -/
def flmVisit (d : FlmData) (s : FlmState) (p : ℤ × ℤ × ℤ) : FlmState :=
  if s.halted then s
  else
    let zi := p.1
    let yi := p.2.1
    let xi := p.2.2
    if d.images zi (yi * d.xsize + xi) > d.threshold ∧ s.taken zi (yi * d.xsize + xi) < 1 then
      let zr := flmZRange d zi
      let yr := flmYRange d yi
      let xr := flmXRange d xi
      let cur := d.images zi (yi * d.xsize + xi)
      let s1 :=
        if isLocalMaxima d cur zr.1 zr.2 yr.1 yi yr.2 xr.1 xi xr.2 then
          { s with
            np := s.np + 1
            taken := fun z j => if z = zi ∧ j = yi * d.xsize + xi then s.taken z j + 1 else s.taken z j
            out := s.out ++ [(d.z_values zi, yi, xi, cur)] }
        else s
      if s1.np ≥ d.n_peaks then { s1 with halted := true } else s1
    else s

/-- The pixel visit order of `findLocalMaxima`: z outer, then y, then x, with
y and x bounded by `margin`. -/
def flmOrder (d : FlmData) : List (ℤ × ℤ × ℤ) :=
  (intRange 0 (d.zsize - 1)).flatMap fun zi =>
    (intRange d.margin (d.ysize - d.margin - 1)).flatMap fun yi =>
      (intRange d.margin (d.xsize - d.margin - 1)).map fun xi => (zi, yi, xi)

/-- `findLocalMaxima`: scan every pixel in order. -/
def findLocalMaxima (d : FlmData) : FlmState :=
  (flmOrder d).foldl (flmVisit d) ⟨0, d.taken, [], false⟩

/-- The value of `flm_data->n_peaks` after `findLocalMaxima` returns: the
early return leaves the field at the caller-supplied cap, the normal exit
stores the count of peaks found. -/
def flmNPeaksOut (d : FlmData) : ℕ :=
  let s := findLocalMaxima d
  if s.halted then d.n_peaks else s.np

/-! ### Specification predicates and invariants -/

/-- Specification predicate: `p` lies inside the box `r`. -/
def inRect (r : Rect) (p : Pt) : Prop :=
  r.mn.x ≤ p.x ∧ p.x ≤ r.mx.x ∧ r.mn.y ≤ p.y ∧ p.y ≤ r.mx.y

/-- Specification predicate: the box `r` is contained in the box `r'`. -/
def rectSub (r r' : Rect) : Prop :=
  r'.mn.x ≤ r.mn.x ∧ r.mx.x ≤ r'.mx.x ∧ r'.mn.y ≤ r.mn.y ∧ r.mx.y ≤ r'.mx.y

/-- The invariant maintained by insertion and exploited by both searches:
every node lies in its box, the left subtree lies in the box sliced at the
node's coordinate from above, the right subtree in the box sliced from
below. -/
def goodTree : KDNode → Rect → Prop
  | .leaf, _ => True
  | .node p dir _ l r, rect =>
    inRect rect p ∧
    goodTree l { rect with mx := setc rect.mx dir (coord p dir) } ∧
    goodTree r { rect with mn := setc rect.mn dir (coord p dir) }

/-- The two-part invariant of a tree built through `kd_insert`: a missing
bounding region means an empty tree, and a present bounding region satisfies
`goodTree`. -/
def treeInv (t : KDTree) : Prop :=
  (t.rect = none → t.root = .leaf) ∧ ∀ r, t.rect = some r → goodTree t.root r

/-- Occurrence count of an entry in a result list (instance-free `countP`
formulation). -/
def cnt (e : ℕ × Pt) (l : List (ℕ × Pt)) : ℕ := l.countP (fun x => decide (x = e))

/-- The status transitions that one Peak Consolidator operation can perform
on a single peak: leave it alone, flip CONVERGED to RUNNING, or mark a
non-ERROR peak as ERROR. -/
def statusRel (st st' : ℕ → PeakStatus) : Prop :=
  ∀ j, st' j = st j ∨ (st j = CONVERGED ∧ st' j = RUNNING) ∨
    (st j ≠ ERROR ∧ st' j = ERROR)

/-- The transitions of `runningIfHasNeighbors`: leave alone or flip CONVERGED
to RUNNING (it never sets ERROR). -/
def statusRelR (st st' : ℕ → PeakStatus) : Prop :=
  ∀ j, st' j = st j ∨ (st j = CONVERGED ∧ st' j = RUNNING)

/-- The disqualification predicate of `isLocalMaxima` for a neighbour pixel
`(zi, yi, xi)` of the candidate at `(cy, cx)` with intensity `cur`. -/
def flmDisq (d : FlmData) (cur : ℚ) (cy cx zi yi xi : ℤ) : Prop :=
  (xi - cx) * (xi - cx) + (yi - cy) * (yi - cy) ≤ ratTrunc (d.radius * d.radius) ∧
  ((yi ≤ cy ∧ xi ≤ cx ∧ d.images zi (yi * d.xsize + xi) > cur) ∨
   (¬(yi ≤ cy ∧ xi ≤ cx) ∧ d.images zi (yi * d.xsize + xi) ≥ cur))

/-- Invariant of the `findLocalMaxima` scan state for a positive cap. -/
def flmInv (d : FlmData) (s : FlmState) : Prop :=
  s.np = s.out.length ∧ (s.halted = false → s.np < d.n_peaks) ∧
    (s.halted = true → s.np = d.n_peaks)

/-! ### Basic geometry lemmas -/

theorem sqDist_nonneg (p q : Pt) : 0 ≤ sqDist p q := by
  unfold sqDist; nlinarith [sq_nonneg (p.x - q.x), sq_nonneg (p.y - q.y)]

theorem sqDist_self (p : Pt) : sqDist p p = 0 := by
  unfold sqDist; ring

theorem eq_of_sqDist_nonpos {p q : Pt} (h : sqDist p q ≤ 0) : p = q := by
  unfold sqDist at h
  have hx : p.x = q.x := by nlinarith [sq_nonneg (p.x - q.x), sq_nonneg (p.y - q.y)]
  have hy : p.y = q.y := by nlinarith [sq_nonneg (p.x - q.x), sq_nonneg (p.y - q.y)]
  cases p; cases q; simp_all

theorem coord_sq_le_sqDist (d : ℕ) (p q : Pt) :
    (coord p d - coord q d) * (coord p d - coord q d) ≤ sqDist p q := by
  unfold coord sqDist
  by_cases hd : d = 0 <;> simp [hd] <;>
    nlinarith [sq_nonneg (p.x - q.x), sq_nonneg (p.y - q.y)]

theorem abs_lt_of_mul_self_lt {a r : ℚ} (hr : 0 ≤ r) (h : a * a < r * r) : |a| < r := by
  by_contra hc
  push_neg at hc
  have h1 : r * r ≤ |a| * |a| :=
    mul_le_mul hc hc hr (abs_nonneg a)
  rw [abs_mul_abs_self] at h1
  linarith

/-! ### Bounding-region lemmas -/



theorem rectSub_refl (r : Rect) : rectSub r r := by
  unfold rectSub; exact ⟨le_refl _, le_refl _, le_refl _, le_refl _⟩

theorem inRect_mono {r r' : Rect} {p : Pt} (hs : rectSub r r') (hp : inRect r p) :
    inRect r' p := by
  unfold rectSub at hs; unfold inRect at hp ⊢
  exact ⟨le_trans hs.1 hp.1, le_trans hp.2.1 hs.2.1,
         le_trans hs.2.2.1 hp.2.2.1, le_trans hp.2.2.2 hs.2.2.2⟩

theorem rectSub_extend (r : Rect) (p : Pt) : rectSub r (hyperrect_extend r p) := by
  unfold rectSub hyperrect_extend
  refine ⟨?_, ?_, ?_, ?_⟩ <;> dsimp only <;> split <;> linarith

theorem inRect_extend (r : Rect) (p : Pt) : inRect (hyperrect_extend r p) p := by
  unfold inRect hyperrect_extend
  refine ⟨?_, ?_, ?_, ?_⟩ <;> dsimp only <;> split <;> linarith

theorem inRect_pt_self (p : Pt) : inRect ⟨p, p⟩ p := by
  unfold inRect; exact ⟨le_refl _, le_refl _, le_refl _, le_refl _⟩

theorem hyperrect_dist_sq_le {r : Rect} {p : Pt} (q : Pt) (hp : inRect r p) :
    hyperrect_dist_sq r q ≤ sqDist p q := by
  obtain ⟨h1, h2, h3, h4⟩ := hp
  unfold hyperrect_dist_sq axisDistSq sqDist
  have hx : (if q.x < r.mn.x then (r.mn.x - q.x) * (r.mn.x - q.x)
      else if q.x > r.mx.x then (r.mx.x - q.x) * (r.mx.x - q.x) else 0)
      ≤ (p.x - q.x) * (p.x - q.x) := by
    split
    · nlinarith
    · split
      · nlinarith
      · nlinarith [sq_nonneg (p.x - q.x)]
  have hy : (if q.y < r.mn.y then (r.mn.y - q.y) * (r.mn.y - q.y)
      else if q.y > r.mx.y then (r.mx.y - q.y) * (r.mx.y - q.y) else 0)
      ≤ (p.y - q.y) * (p.y - q.y) := by
    split
    · nlinarith
    · split
      · nlinarith
      · nlinarith [sq_nonneg (p.y - q.y)]
  linarith

/-! ### The kd-tree structural invariant -/


theorem inRect_sliceMax_le {r : Rect} {p : Pt} {d : ℕ} {v : ℚ}
    (h : inRect { r with mx := setc r.mx d v } p) : coord p d ≤ v := by
  obtain ⟨h1, h2, h3, h4⟩ := h
  by_cases hd : d = 0
  · simp only [setc, hd, if_true] at h2
    simpa [coord, hd] using h2
  · simp only [setc, hd, if_false] at h4
    simpa [coord, hd] using h4

theorem inRect_sliceMin_ge {r : Rect} {p : Pt} {d : ℕ} {v : ℚ}
    (h : inRect { r with mn := setc r.mn d v } p) : v ≤ coord p d := by
  obtain ⟨h1, h2, h3, h4⟩ := h
  by_cases hd : d = 0
  · simp only [setc, hd, if_true] at h1
    simpa [coord, hd] using h1
  · simp only [setc, hd, if_false] at h3
    simpa [coord, hd] using h3

theorem inRect_sliceMax_of {r : Rect} {p : Pt} {d : ℕ} {v : ℚ}
    (hp : inRect r p) (hv : coord p d ≤ v) : inRect { r with mx := setc r.mx d v } p := by
  obtain ⟨h1, h2, h3, h4⟩ := hp
  by_cases hd : d = 0
  · simp only [coord, hd, if_true] at hv
    exact ⟨h1, by simp [setc, hd]; exact hv, h3, by simp [setc, hd]; exact h4⟩
  · simp only [coord, hd, if_false] at hv
    exact ⟨h1, by simp [setc, hd]; exact h2, h3, by simp [setc, hd]; exact hv⟩

theorem inRect_sliceMin_of {r : Rect} {p : Pt} {d : ℕ} {v : ℚ}
    (hp : inRect r p) (hv : v ≤ coord p d) : inRect { r with mn := setc r.mn d v } p := by
  obtain ⟨h1, h2, h3, h4⟩ := hp
  by_cases hd : d = 0
  · simp only [coord, hd, if_true] at hv
    exact ⟨by simp [setc, hd]; exact hv, h2, by simp [setc, hd]; exact h3, h4⟩
  · simp only [coord, hd, if_false] at hv
    exact ⟨by simp [setc, hd]; exact h1, h2, by simp [setc, hd]; exact hv, h4⟩

theorem rectSub_sliceMax {r r' : Rect} {d : ℕ} {v : ℚ} (h : rectSub r r') :
    rectSub { r with mx := setc r.mx d v } { r' with mx := setc r'.mx d v } := by
  obtain ⟨h1, h2, h3, h4⟩ := h
  by_cases hd : d = 0
  · exact ⟨h1, by simp [setc, hd], h3, by simp [setc, hd]; exact h4⟩
  · exact ⟨h1, by simp [setc, hd]; exact h2, h3, by simp [setc, hd]⟩

theorem rectSub_sliceMin {r r' : Rect} {d : ℕ} {v : ℚ} (h : rectSub r r') :
    rectSub { r with mn := setc r.mn d v } { r' with mn := setc r'.mn d v } := by
  obtain ⟨h1, h2, h3, h4⟩ := h
  by_cases hd : d = 0
  · exact ⟨by simp [setc, hd], h2, by simp [setc, hd]; exact h3, h4⟩
  · exact ⟨by simp [setc, hd]; exact h1, h2, by simp [setc, hd], h4⟩

theorem rectSub_sliceMax_self {r : Rect} {d : ℕ} {v : ℚ} (hv : v ≤ coord r.mx d) :
    rectSub { r with mx := setc r.mx d v } r := by
  by_cases hd : d = 0
  · simp only [coord, hd, if_true] at hv
    exact ⟨le_refl _, by simp [setc, hd]; exact hv, le_refl _, by simp [setc, hd]⟩
  · simp only [coord, hd, if_false] at hv
    exact ⟨le_refl _, by simp [setc, hd], le_refl _, by simp [setc, hd]; exact hv⟩

theorem rectSub_sliceMin_self {r : Rect} {d : ℕ} {v : ℚ} (hv : coord r.mn d ≤ v) :
    rectSub { r with mn := setc r.mn d v } r := by
  by_cases hd : d = 0
  · simp only [coord, hd, if_true] at hv
    exact ⟨by simp [setc, hd]; exact hv, le_refl _, by simp [setc, hd], le_refl _⟩
  · simp only [coord, hd, if_false] at hv
    exact ⟨by simp [setc, hd], le_refl _, by simp [setc, hd]; exact hv, le_refl _⟩

theorem coord_le_mx_of_inRect {r : Rect} {p : Pt} (h : inRect r p) (d : ℕ) :
    coord p d ≤ coord r.mx d := by
  unfold inRect at h; unfold coord
  by_cases hd : d = 0 <;> simp [hd] <;> tauto

theorem mn_le_coord_of_inRect {r : Rect} {p : Pt} (h : inRect r p) (d : ℕ) :
    coord r.mn d ≤ coord p d := by
  unfold inRect at h; unfold coord
  by_cases hd : d = 0 <;> simp [hd] <;> tauto

theorem goodTree_mono : ∀ {n : KDNode} {r r' : Rect}, goodTree n r → rectSub r r' →
    goodTree n r'
  | .leaf, _, _, _, _ => trivial
  | .node p dir dat l rt, r, r', hg, hs => by
    obtain ⟨hp, hl, hr⟩ := hg
    exact ⟨inRect_mono hs hp,
      goodTree_mono hl (rectSub_sliceMax hs),
      goodTree_mono hr (rectSub_sliceMin hs)⟩

theorem goodTree_insert : ∀ {n : KDNode} {rect : Rect} {q : Pt} (data dir : ℕ),
    goodTree n rect → inRect rect q → goodTree (insert_rec n q data dir) rect
  | .leaf, rect, q, data, dir, _, hq => by
    simp only [insert_rec]
    exact ⟨hq, trivial, trivial⟩
  | .node npos ndir ndata l r, rect, q, data, dir, hg, hq => by
    obtain ⟨hp, hl, hr⟩ := hg
    simp only [insert_rec]
    split
    · exact ⟨hp, goodTree_insert _ _ hl (inRect_sliceMax_of hq (le_of_lt (by assumption))), hr⟩
    · exact ⟨hp, hl, goodTree_insert _ _ hr (inRect_sliceMin_of hq (le_of_not_lt (by assumption)))⟩

theorem goodTree_mem_inRect : ∀ {n : KDNode} {rect : Rect}, goodTree n rect →
    ∀ e ∈ treePoints n, inRect rect e.2
  | .leaf, _, _, e, he => by simp [treePoints] at he
  | .node p dir dat l r, rect, hg, e, he => by
    obtain ⟨hp, hl, hr⟩ := hg
    simp only [treePoints, List.mem_cons, List.mem_append] at he
    rcases he with he | he | he
    · subst he; exact hp
    · exact inRect_mono (rectSub_sliceMax_self (coord_le_mx_of_inRect hp dir))
        (goodTree_mem_inRect hl e he)
    · exact inRect_mono (rectSub_sliceMin_self (mn_le_coord_of_inRect hp dir))
        (goodTree_mem_inRect hr e he)

/-! ### Tree building: stored points and the invariant -/

theorem treePoints_insert_rec : ∀ (n : KDNode) (q : Pt) (data dir : ℕ),
    List.Perm (treePoints (insert_rec n q data dir)) ((data, q) :: treePoints n)
  | .leaf, q, data, dir => by simp [insert_rec, treePoints]
  | .node npos ndir ndata l r, q, data, dir => by
    simp only [insert_rec]
    split
    · simp only [treePoints]
      refine List.Perm.trans (List.Perm.cons _ (List.Perm.append_right _
        (treePoints_insert_rec l q data ((ndir + 1) % 2)))) ?_
      simp only [List.cons_append]
      exact List.Perm.swap _ _ _
    · simp only [treePoints]
      refine List.Perm.trans (List.Perm.cons _ (List.Perm.append_left _
        (treePoints_insert_rec r q data ((ndir + 1) % 2)))) ?_
      exact List.Perm.trans (List.Perm.cons _ List.perm_middle) (List.Perm.swap _ _ _)


theorem treeInv_kd_create : treeInv kd_create := by
  constructor
  · intro _; rfl
  · intro r hr; simp [kd_create] at hr

theorem treeInv_kd_insert {t : KDTree} (q : Pt) (data : ℕ) (h : treeInv t) :
    treeInv (kd_insert t q data) := by
  obtain ⟨h1, h2⟩ := h
  constructor
  · intro hn; simp [kd_insert] at hn
  · intro r hr
    simp only [kd_insert] at hr ⊢
    cases ht : t.rect with
    | none =>
      have hroot := h1 ht
      rw [ht] at hr
      simp at hr
      subst hr
      rw [hroot]
      exact goodTree_insert data 0 trivial (inRect_pt_self q)
    | some r0 =>
      have hg := h2 r0 ht
      rw [ht] at hr
      simp at hr
      subst hr
      exact goodTree_insert data 0
        (goodTree_mono hg (rectSub_extend r0 q)) (inRect_extend r0 q)

theorem treeInv_foldl (l : List (ℕ × Pt)) :
    ∀ (t : KDTree), treeInv t → treeInv (l.foldl (fun t e => kd_insert t e.2 e.1) t) := by
  induction l with
  | nil => intro t h; exact h
  | cons e l ih =>
    intro t h
    exact ih _ (treeInv_kd_insert e.2 e.1 h)

theorem treeInv_createKDTree (pts : List Pt) : treeInv (createKDTree pts) :=
  treeInv_foldl _ _ treeInv_kd_create

theorem treePoints_foldl (l : List (ℕ × Pt)) :
    ∀ (t : KDTree),
      List.Perm (treePoints (l.foldl (fun t e => kd_insert t e.2 e.1) t).root)
        (l ++ treePoints t.root) := by
  induction l with
  | nil => intro t; simp
  | cons e l ih =>
    intro t
    refine List.Perm.trans (ih (kd_insert t e.2 e.1)) ?_
    have h1 : List.Perm (treePoints (kd_insert t e.2 e.1).root)
        ((e.1, e.2) :: treePoints t.root) := treePoints_insert_rec t.root e.2 e.1 0
    refine List.Perm.trans (List.Perm.append_left l h1) ?_
    exact List.perm_middle

theorem treePoints_createKDTree (pts : List Pt) :
    List.Perm (treePoints (createKDTree pts).root) (withIdx 0 pts) := by
  have h := treePoints_foldl (withIdx 0 pts) kd_create
  simpa [kd_create, treePoints] using h

/-! ### `withIdx` facts -/

theorem mem_withIdx_ge : ∀ (l : List Pt) (n : ℕ) (e : ℕ × Pt),
    e ∈ withIdx n l → n ≤ e.1
  | [], n, e, he => by simp [withIdx] at he
  | p :: ps, n, e, he => by
    simp only [withIdx, List.mem_cons] at he
    rcases he with he | he
    · subst he; exact le_refl _
    · exact le_trans (Nat.le_succ n) (mem_withIdx_ge ps (n + 1) e he)

theorem nodup_withIdx : ∀ (l : List Pt) (n : ℕ), (withIdx n l).Nodup
  | [], n => by simp [withIdx]
  | p :: ps, n => by
    simp only [withIdx, List.nodup_cons]
    refine ⟨?_, nodup_withIdx ps (n + 1)⟩
    intro hmem
    have := mem_withIdx_ge ps (n + 1) (n, p) hmem
    omega

theorem length_withIdx : ∀ (l : List Pt) (n : ℕ), (withIdx n l).length = l.length
  | [], n => rfl
  | p :: ps, n => by simp [withIdx, length_withIdx ps (n + 1)]

/-! ### Range query lemmas -/

theorem mem_find_nearest_acc : ∀ (n : KDNode) (q : Pt) (rg : ℚ) (acc : List (ℕ × Pt)) (e : ℕ × Pt),
    e ∈ acc → e ∈ find_nearest n q rg acc
  | .leaf, q, rg, acc, e, he => he
  | .node npos ndir ndata l r, q, rg, acc, e, he => by
    have hacc1 : e ∈ (if sqDist npos q ≤ rg * rg then (ndata, npos) :: acc else acc) := by
      split
      · exact List.mem_cons_of_mem _ he
      · exact he
    simp only [find_nearest]
    split
    · split
      · exact mem_find_nearest_acc r q rg _ e (mem_find_nearest_acc l q rg _ e hacc1)
      · exact mem_find_nearest_acc l q rg _ e hacc1
    · split
      · exact mem_find_nearest_acc l q rg _ e (mem_find_nearest_acc r q rg _ e hacc1)
      · exact mem_find_nearest_acc r q rg _ e hacc1

theorem find_nearest_sound : ∀ (n : KDNode) (q : Pt) (rg : ℚ) (acc : List (ℕ × Pt)) (e : ℕ × Pt),
    e ∈ find_nearest n q rg acc →
    e ∈ acc ∨ (e ∈ treePoints n ∧ sqDist e.2 q ≤ rg * rg)
  | .leaf, q, rg, acc, e, he => Or.inl he
  | .node npos ndir ndata l r, q, rg, acc, e, he => by
    have hacc1 : e ∈ (if sqDist npos q ≤ rg * rg then (ndata, npos) :: acc else acc) →
        e ∈ acc ∨ (e ∈ treePoints (.node npos ndir ndata l r) ∧ sqDist e.2 q ≤ rg * rg) := by
      split
      · intro hm
        rcases List.mem_cons.mp hm with hm | hm
        · subst hm
          refine Or.inr ⟨by simp [treePoints], by assumption⟩
        · exact Or.inl hm
      · exact fun hm => Or.inl hm
    have hsubl : e ∈ treePoints l → e ∈ treePoints (KDNode.node npos ndir ndata l r) := by
      intro hm; simp [treePoints, hm]
    have hsubr : e ∈ treePoints r → e ∈ treePoints (KDNode.node npos ndir ndata l r) := by
      intro hm; simp [treePoints, hm]
    simp only [find_nearest] at he
    revert he
    split
    · split
      · intro he
        rcases find_nearest_sound r q rg _ e he with he2 | he2
        · rcases find_nearest_sound l q rg _ e he2 with he3 | he3
          · exact hacc1 he3
          · exact Or.inr ⟨hsubl he3.1, he3.2⟩
        · exact Or.inr ⟨hsubr he2.1, he2.2⟩
      · intro he
        rcases find_nearest_sound l q rg _ e he with he2 | he2
        · exact hacc1 he2
        · exact Or.inr ⟨hsubl he2.1, he2.2⟩
    · split
      · intro he
        rcases find_nearest_sound l q rg _ e he with he2 | he2
        · rcases find_nearest_sound r q rg _ e he2 with he3 | he3
          · exact hacc1 he3
          · exact Or.inr ⟨hsubr he3.1, he3.2⟩
        · exact Or.inr ⟨hsubl he2.1, he2.2⟩
      · intro he
        rcases find_nearest_sound r q rg _ e he with he2 | he2
        · exact hacc1 he2
        · exact Or.inr ⟨hsubr he2.1, he2.2⟩

theorem find_nearest_complete : ∀ (n : KDNode) (rect : Rect) (q : Pt) (rg : ℚ)
    (acc : List (ℕ × Pt)) (e : ℕ × Pt),
    goodTree n rect → 0 ≤ rg → e ∈ treePoints n → sqDist e.2 q < rg * rg →
    e ∈ find_nearest n q rg acc
  | .leaf, rect, q, rg, acc, e, hg, hrg, hmem, hlt => by simp [treePoints] at hmem
  | .node npos ndir ndata l r, rect, q, rg, acc, e, hg, hrg, hmem, hlt => by
    obtain ⟨hp, hl, hr⟩ := hg
    have hacc1 : e = (ndata, npos) →
        e ∈ (if sqDist npos q ≤ rg * rg then (ndata, npos) :: acc else acc) := by
      intro he
      subst he
      rw [if_pos (le_of_lt hlt)]
      exact List.mem_cons_self _ _
    simp only [treePoints, List.mem_cons, List.mem_append] at hmem
    simp only [find_nearest]
    rcases hmem with hmem | hmem | hmem
    · -- e is the node itself: it enters the accumulator and survives
      split
      · split
        · exact mem_find_nearest_acc r q rg _ e (mem_find_nearest_acc l q rg _ e (hacc1 hmem))
        · exact mem_find_nearest_acc l q rg _ e (hacc1 hmem)
      · split
        · exact mem_find_nearest_acc l q rg _ e (mem_find_nearest_acc r q rg _ e (hacc1 hmem))
        · exact mem_find_nearest_acc r q rg _ e (hacc1 hmem)
    · -- e in the left subtree
      have hcoord : coord e.2 ndir ≤ coord npos ndir :=
        inRect_sliceMax_le (goodTree_mem_inRect hl e hmem)
      split
      · -- query on the left side: left searched unconditionally
        split
        · exact mem_find_nearest_acc r q rg _ e
            (find_nearest_complete l _ q rg _ e hl hrg hmem hlt)
        · exact find_nearest_complete l _ q rg _ e hl hrg hmem hlt
      · -- query strictly on the right side: left is the far subtree
        rename_i hdx
        push_neg at hdx
        have hsq : (coord q ndir - coord npos ndir) * (coord q ndir - coord npos ndir)
            ≤ sqDist e.2 q := by
          have h1 := coord_sq_le_sqDist ndir e.2 q
          nlinarith
        have habs : |coord q ndir - coord npos ndir| < rg :=
          abs_lt_of_mul_self_lt hrg (lt_of_le_of_lt hsq hlt)
        rw [if_pos habs]
        exact find_nearest_complete l _ q rg _ e hl hrg hmem hlt
    · -- e in the right subtree
      have hcoord : coord npos ndir ≤ coord e.2 ndir :=
        inRect_sliceMin_ge (goodTree_mem_inRect hr e hmem)
      split
      · -- query on the left side (dx ≤ 0): right is the far subtree
        rename_i hdx
        have hsq : (coord q ndir - coord npos ndir) * (coord q ndir - coord npos ndir)
            ≤ sqDist e.2 q := by
          have h1 := coord_sq_le_sqDist ndir e.2 q
          nlinarith
        have habs : |coord q ndir - coord npos ndir| < rg :=
          abs_lt_of_mul_self_lt hrg (lt_of_le_of_lt hsq hlt)
        rw [if_pos habs]
        exact find_nearest_complete r _ q rg _ e hr hrg hmem hlt
      · split
        · exact mem_find_nearest_acc l q rg _ e
            (find_nearest_complete r _ q rg _ e hr hrg hmem hlt)
        · exact find_nearest_complete r _ q rg _ e hr hrg hmem hlt



theorem cnt_nil (e : ℕ × Pt) : cnt e [] = 0 := rfl

theorem cnt_cons (e a : ℕ × Pt) (l : List (ℕ × Pt)) :
    cnt e (a :: l) = cnt e l + if a = e then 1 else 0 := by
  simp [cnt, List.countP_cons]

theorem cnt_append (e : ℕ × Pt) (l₁ l₂ : List (ℕ × Pt)) :
    cnt e (l₁ ++ l₂) = cnt e l₁ + cnt e l₂ := by
  simp [cnt, List.countP_append]

theorem cnt_eq_zero_of_not_mem {e : ℕ × Pt} {l : List (ℕ × Pt)} (h : e ∉ l) :
    cnt e l = 0 := by
  induction l with
  | nil => rfl
  | cons a l ih =>
    rw [cnt_cons]
    have h1 : a ≠ e := fun hc => h (hc ▸ List.mem_cons_self a l)
    have h2 : e ∉ l := fun hc => h (List.mem_cons_of_mem a hc)
    simp [h1, ih h2]

theorem cnt_pos_of_mem {e : ℕ × Pt} {l : List (ℕ × Pt)} (h : e ∈ l) : 1 ≤ cnt e l := by
  induction l with
  | nil => simp at h
  | cons a l ih =>
    rw [cnt_cons]
    rcases List.mem_cons.mp h with h | h
    · simp [h.symm]
    · have := ih h
      omega

theorem find_nearest_cnt : ∀ (n : KDNode) (q : Pt) (rg : ℚ) (acc : List (ℕ × Pt)) (e : ℕ × Pt),
    cnt e (find_nearest n q rg acc) ≤ cnt e (treePoints n) + cnt e acc
  | .leaf, q, rg, acc, e => le_of_eq (by simp [find_nearest, treePoints, cnt_nil])
  | .node npos ndir ndata l r, q, rg, acc, e => by
    have hacc1 : cnt e (if sqDist npos q ≤ rg * rg then (ndata, npos) :: acc else acc)
        ≤ cnt e ((ndata, npos) :: acc) := by
      split
      · exact le_refl _
      · rw [cnt_cons]
        exact Nat.le_add_right _ _
    have h2 : cnt e ((ndata, npos) :: acc) + (cnt e (treePoints l) + cnt e (treePoints r))
        = cnt e (treePoints (KDNode.node npos ndir ndata l r)) + cnt e acc := by
      simp only [treePoints, cnt_cons, cnt_append]
      ring
    simp only [find_nearest]
    split
    · split
      · have ha := find_nearest_cnt r q rg
          (find_nearest l q rg (if sqDist npos q ≤ rg * rg then (ndata, npos) :: acc else acc)) e
        have hb := find_nearest_cnt l q rg
          (if sqDist npos q ≤ rg * rg then (ndata, npos) :: acc else acc) e
        omega
      · have hb := find_nearest_cnt l q rg
          (if sqDist npos q ≤ rg * rg then (ndata, npos) :: acc else acc) e
        omega
    · split
      · have ha := find_nearest_cnt l q rg
          (find_nearest r q rg (if sqDist npos q ≤ rg * rg then (ndata, npos) :: acc else acc)) e
        have hb := find_nearest_cnt r q rg
          (if sqDist npos q ≤ rg * rg then (ndata, npos) :: acc else acc) e
        omega
      · have hb := find_nearest_cnt r q rg
          (if sqDist npos q ≤ rg * rg then (ndata, npos) :: acc else acc) e
        omega

theorem cnt_withIdx_le_one : ∀ (l : List Pt) (n : ℕ) (e : ℕ × Pt), cnt e (withIdx n l) ≤ 1
  | [], n, e => by simp [withIdx, cnt_nil]
  | p :: ps, n, e => by
    simp only [withIdx, cnt_cons]
    by_cases he : (n, p) = e
    · have hnot : e ∉ withIdx (n + 1) ps := by
        intro hmem
        have h1 := mem_withIdx_ge ps (n + 1) e hmem
        have h2 : e.1 = n := by rw [← he]
        omega
      rw [cnt_eq_zero_of_not_mem hnot]
      simp [he]
    · rw [if_neg he]
      have := cnt_withIdx_le_one ps (n + 1) e
      omega

/-! ### Range query on a built tree -/

theorem kd_nearest_range_sound {pts : List Pt} {q : Pt} {rg : ℚ} {e : ℕ × Pt}
    (he : e ∈ kd_nearest_range (createKDTree pts) q rg) :
    e ∈ withIdx 0 pts ∧ sqDist e.2 q ≤ rg * rg := by
  rcases find_nearest_sound _ q rg [] e he with h | h
  · simp at h
  · exact ⟨(treePoints_createKDTree pts).mem_iff.mp h.1, h.2⟩

theorem kd_nearest_range_complete {pts : List Pt} {q : Pt} {rg : ℚ} {e : ℕ × Pt}
    (hrg : 0 ≤ rg) (he : e ∈ withIdx 0 pts) (hlt : sqDist e.2 q < rg * rg) :
    e ∈ kd_nearest_range (createKDTree pts) q rg := by
  have hmem : e ∈ treePoints (createKDTree pts).root :=
    (treePoints_createKDTree pts).mem_iff.mpr he
  obtain ⟨h1, h2⟩ := treeInv_createKDTree pts
  cases ht : (createKDTree pts).rect with
  | none =>
    rw [h1 ht] at hmem
    simp [treePoints] at hmem
  | some r0 => exact find_nearest_complete _ r0 q rg [] e (h2 r0 ht) hrg hmem hlt

theorem kd_nearest_range_cnt (pts : List Pt) (q : Pt) (rg : ℚ) (e : ℕ × Pt) :
    cnt e (kd_nearest_range (createKDTree pts) q rg) ≤ 1 := by
  have h := find_nearest_cnt (createKDTree pts).root q rg [] e
  have h2 : cnt e (treePoints (createKDTree pts).root) = cnt e (withIdx 0 pts) :=
    (treePoints_createKDTree pts).countP_eq _
  have h3 := cnt_withIdx_le_one pts 0 e
  simp only [kd_nearest_range, cnt_nil] at h ⊢
  omega

/-! ### Nearest-neighbour search lemmas -/

theorem kd_nearest_i_spec : ∀ (n : KDNode) (rect : Rect) (q : Pt) (best : ℕ × Pt) (bd : ℚ),
    goodTree n rect → bd = sqDist best.2 q →
    (kd_nearest_i n q best bd rect).2 = sqDist (kd_nearest_i n q best bd rect).1.2 q ∧
    (kd_nearest_i n q best bd rect).2 ≤ bd ∧
    ((kd_nearest_i n q best bd rect).1 = best ∨
      (kd_nearest_i n q best bd rect).1 ∈ treePoints n) ∧
    (∀ e ∈ treePoints n, (kd_nearest_i n q best bd rect).2 ≤ sqDist e.2 q)
  | .leaf, rect, q, best, bd, hg, hbd => by
    refine ⟨hbd, le_refl _, Or.inl rfl, ?_⟩
    intro e he
    simp [treePoints] at he
  | .node npos ndir ndata l r, rect, q, best, bd, hg, hbd => by
    obtain ⟨hp, hl, hr⟩ := hg
    simp only [kd_nearest_i]
    split
    · -- query on the left side: nearer = left, farther = right
      obtain ⟨ha1, ha2, ha3, ha4⟩ := kd_nearest_i_spec l _ q best bd hl hbd
      set res1 := kd_nearest_i l q best bd
        { rect with mx := setc rect.mx ndir (coord npos ndir) } with hr1
      set res2 := (if sqDist npos q < res1.2 then ((ndata, npos), sqDist npos q) else res1)
        with hr2
      set frect : Rect := { rect with mn := setc rect.mn ndir (coord npos ndir) } with hfr
      have hb1 : res2.2 = sqDist res2.1.2 q := by
        rw [hr2]; split
        · rfl
        · exact ha1
      have hb2 : res2.2 ≤ res1.2 := by
        rw [hr2]; split
        · exact le_of_lt (by assumption)
        · exact le_refl _
      have hb3 : res2.1 = best ∨ res2.1 ∈ treePoints (KDNode.node npos ndir ndata l r) := by
        rw [hr2]; split
        · exact Or.inr (by simp [treePoints])
        · rcases ha3 with h | h
          · exact Or.inl h
          · exact Or.inr (by simp [treePoints, h])
      have hb4 : res2.2 ≤ sqDist npos q := by
        rw [hr2]; split
        · exact le_refl _
        · exact le_of_not_lt (by assumption)
      by_cases hpr : hyperrect_dist_sq frect q < res2.2
      · rw [if_pos hpr]
        obtain ⟨hc1, hc2, hc3, hc4⟩ := kd_nearest_i_spec r frect q res2.1 res2.2 hr hb1
        refine ⟨hc1, le_trans hc2 (le_trans hb2 ha2), ?_, ?_⟩
        · rcases hc3 with h | h
          · rw [h]; exact hb3
          · exact Or.inr (by simp only [treePoints, List.mem_cons, List.mem_append]; tauto)
        · intro e he
          simp only [treePoints, List.mem_cons, List.mem_append] at he
          rcases he with he | he | he
          · subst he; exact le_trans hc2 hb4
          · exact le_trans hc2 (le_trans hb2 (ha4 e he))
          · exact hc4 e he
      · rw [if_neg hpr]
        push_neg at hpr
        refine ⟨hb1, le_trans hb2 ha2, hb3, ?_⟩
        intro e he
        simp only [treePoints, List.mem_cons, List.mem_append] at he
        rcases he with he | he | he
        · subst he; exact hb4
        · exact le_trans hb2 (ha4 e he)
        · exact le_trans hpr (hyperrect_dist_sq_le q (goodTree_mem_inRect hr e he))
    · -- query on the right side: nearer = right, farther = left
      obtain ⟨ha1, ha2, ha3, ha4⟩ := kd_nearest_i_spec r _ q best bd hr hbd
      set res1 := kd_nearest_i r q best bd
        { rect with mn := setc rect.mn ndir (coord npos ndir) } with hr1
      set res2 := (if sqDist npos q < res1.2 then ((ndata, npos), sqDist npos q) else res1)
        with hr2
      set frect : Rect := { rect with mx := setc rect.mx ndir (coord npos ndir) } with hfr
      have hb1 : res2.2 = sqDist res2.1.2 q := by
        rw [hr2]; split
        · rfl
        · exact ha1
      have hb2 : res2.2 ≤ res1.2 := by
        rw [hr2]; split
        · exact le_of_lt (by assumption)
        · exact le_refl _
      have hb3 : res2.1 = best ∨ res2.1 ∈ treePoints (KDNode.node npos ndir ndata l r) := by
        rw [hr2]; split
        · exact Or.inr (by simp [treePoints])
        · rcases ha3 with h | h
          · exact Or.inl h
          · exact Or.inr (by simp [treePoints, h])
      have hb4 : res2.2 ≤ sqDist npos q := by
        rw [hr2]; split
        · exact le_refl _
        · exact le_of_not_lt (by assumption)
      by_cases hpr : hyperrect_dist_sq frect q < res2.2
      · rw [if_pos hpr]
        obtain ⟨hc1, hc2, hc3, hc4⟩ := kd_nearest_i_spec l frect q res2.1 res2.2 hl hb1
        refine ⟨hc1, le_trans hc2 (le_trans hb2 ha2), ?_, ?_⟩
        · rcases hc3 with h | h
          · rw [h]; exact hb3
          · exact Or.inr (by simp only [treePoints, List.mem_cons, List.mem_append]; tauto)
        · intro e he
          simp only [treePoints, List.mem_cons, List.mem_append] at he
          rcases he with he | he | he
          · subst he; exact le_trans hc2 hb4
          · exact hc4 e he
          · exact le_trans hc2 (le_trans hb2 (ha4 e he))
      · rw [if_neg hpr]
        push_neg at hpr
        refine ⟨hb1, le_trans hb2 ha2, hb3, ?_⟩
        intro e he
        simp only [treePoints, List.mem_cons, List.mem_append] at he
        rcases he with he | he | he
        · subst he; exact hb4
        · exact le_trans hpr (hyperrect_dist_sq_le q (goodTree_mem_inRect hl e he))
        · exact le_trans hb2 (ha4 e he)

theorem withIdx_ne_nil {pts : List Pt} (h : pts ≠ []) : withIdx 0 pts ≠ [] := by
  cases pts with
  | nil => exact absurd rfl h
  | cons p ps => simp [withIdx]

theorem kd_nearest_createKDTree (pts : List Pt) (q : Pt) (hne : pts ≠ []) :
    ∃ ip : ℕ × Pt, kd_nearest (createKDTree pts) q = some ip ∧ ip ∈ withIdx 0 pts ∧
      ∀ e ∈ withIdx 0 pts, sqDist ip.2 q ≤ sqDist e.2 q := by
  have hperm := treePoints_createKDTree pts
  obtain ⟨hinv1, hinv2⟩ := treeInv_createKDTree pts
  have hroot_ne : treePoints (createKDTree pts).root ≠ [] := by
    intro hc
    cases hw : withIdx 0 pts with
    | nil => exact withIdx_ne_nil hne hw
    | cons a l =>
      have ha : a ∈ treePoints (createKDTree pts).root :=
        hperm.mem_iff.mpr (by rw [hw]; exact List.mem_cons_self a l)
      rw [hc] at ha
      simp at ha
  cases ht : (createKDTree pts).rect with
  | none =>
    rw [hinv1 ht] at hroot_ne
    simp [treePoints] at hroot_ne
  | some rect =>
    have hg := hinv2 rect ht
    cases hroot : (createKDTree pts).root with
    | leaf =>
      rw [hroot] at hroot_ne
      simp [treePoints] at hroot_ne
    | node npos ndir ndata l r =>
      rw [hroot] at hg hperm
      obtain ⟨hs1, hs2, hs3, hs4⟩ :=
        kd_nearest_i_spec (.node npos ndir ndata l r) rect q (ndata, npos) (sqDist npos q) hg rfl
      refine ⟨(kd_nearest_i (.node npos ndir ndata l r) q (ndata, npos) (sqDist npos q) rect).1,
        ?_, ?_, ?_⟩
      · simp only [kd_nearest, ht, hroot]
      · have hmem : (kd_nearest_i (.node npos ndir ndata l r) q (ndata, npos)
            (sqDist npos q) rect).1 ∈ treePoints (KDNode.node npos ndir ndata l r) := by
          rcases hs3 with h | h
          · rw [h]; simp [treePoints]
          · exact h
        exact hperm.mem_iff.mp hmem
      · intro e he
        have he2 : e ∈ treePoints (KDNode.node npos ndir ndata l r) := hperm.mem_iff.mpr he
        have := hs4 e he2
        rw [hs1] at this
        exact this

/-! ### Status-update machinery -/

theorem flipConverged_point : ∀ (res : List (ℕ × Pt)) (st : ℕ → PeakStatus) (j : ℕ),
    flipConverged res st j =
      if st j = CONVERGED ∧ j ∈ res.map Prod.fst then RUNNING else st j
  | [], st, j => by simp [flipConverged]
  | e :: res, st, j => by
    have hstep : flipConverged (e :: res) st =
        flipConverged res (if st e.1 = CONVERGED then Function.update st e.1 RUNNING else st) := by
      simp [flipConverged]
    rw [hstep, flipConverged_point res _ j]
    by_cases hc : st e.1 = CONVERGED
    · simp only [hc, if_true]
      by_cases hje : j = e.1
      · have h1 : Function.update st e.1 RUNNING j = RUNNING := by rw [hje]; simp
        have h2 : st j = CONVERGED := by rw [hje]; exact hc
        simp [h1, h2, hje, hc]
      · have h1 : Function.update st e.1 RUNNING j = st j := Function.update_noteq hje _ _
        rw [h1]
        by_cases hj : st j = CONVERGED ∧ j ∈ res.map Prod.fst
        · simp [hj.1, hj.2]
        · have hne : ¬(st j = CONVERGED ∧ j ∈ (e :: res).map Prod.fst) := by
            rintro ⟨h2, h3⟩
            simp only [List.map_cons, List.mem_cons] at h3
            rcases h3 with h3 | h3
            · exact hje h3
            · exact hj ⟨h2, h3⟩
          rw [if_neg hj, if_neg hne]
    · simp only [hc, if_false]
      by_cases hj : st j = CONVERGED ∧ j ∈ res.map Prod.fst
      · simp [hj.1, hj.2]
      · have hne : ¬(st j = CONVERGED ∧ j ∈ (e :: res).map Prod.fst) := by
          rintro ⟨h2, h3⟩
          simp only [List.map_cons, List.mem_cons] at h3
          rcases h3 with h3 | h3
          · rw [h3] at h2
            exact hc h2
          · exact hj ⟨h2, h3⟩
        rw [if_neg hj, if_neg hne]



theorem statusRel_refl (st : ℕ → PeakStatus) : statusRel st st := fun j => Or.inl rfl

theorem statusRelR_refl (st : ℕ → PeakStatus) : statusRelR st st := fun j => Or.inl rfl

theorem statusRel_trans {s1 s2 s3 : ℕ → PeakStatus}
    (h1 : statusRel s1 s2) (h2 : statusRel s2 s3) : statusRel s1 s3 := by
  intro j
  rcases h1 j with ha | ⟨ha1, ha2⟩ | ⟨ha1, ha2⟩ <;>
    rcases h2 j with hb | ⟨hb1, hb2⟩ | ⟨hb1, hb2⟩
  · exact Or.inl (hb.trans ha)
  · exact Or.inr (Or.inl ⟨ha ▸ hb1, hb2⟩)
  · exact Or.inr (Or.inr ⟨ha ▸ hb1, hb2⟩)
  · exact Or.inr (Or.inl ⟨ha1, hb.trans ha2⟩)
  · rw [ha2] at hb1; exact absurd hb1 (by simp)
  · exact Or.inr (Or.inr ⟨by rw [ha1]; simp, hb2⟩)
  · exact Or.inr (Or.inr ⟨ha1, hb.trans ha2⟩)
  · rw [ha2] at hb1; exact absurd hb1 (by simp)
  · rw [ha2] at hb1; exact absurd rfl hb1

theorem statusRelR_trans {s1 s2 s3 : ℕ → PeakStatus}
    (h1 : statusRelR s1 s2) (h2 : statusRelR s2 s3) : statusRelR s1 s3 := by
  intro j
  rcases h1 j with ha | ⟨ha1, ha2⟩ <;> rcases h2 j with hb | ⟨hb1, hb2⟩
  · exact Or.inl (hb.trans ha)
  · exact Or.inr ⟨ha ▸ hb1, hb2⟩
  · exact Or.inr ⟨ha1, hb.trans ha2⟩
  · rw [ha2] at hb1; exact absurd hb1 (by simp)

theorem statusRel_error_stable {st st' : ℕ → PeakStatus} (h : statusRel st st') {j : ℕ}
    (hj : st j = ERROR) : st' j = ERROR := by
  rcases h j with ha | ⟨ha1, ha2⟩ | ⟨ha1, ha2⟩
  · exact ha.trans hj
  · rw [hj] at ha1; exact absurd ha1 (by simp)
  · exact ha2

theorem statusRel_flipConverged (res : List (ℕ × Pt)) (st : ℕ → PeakStatus) :
    statusRel st (flipConverged res st) := by
  intro j
  rw [flipConverged_point]
  split
  · exact Or.inr (Or.inl ⟨(by assumption : _ ∧ _).1, rfl⟩)
  · exact Or.inl rfl

theorem statusRel_update_error {st : ℕ → PeakStatus} {i : ℕ} (h : st i ≠ ERROR) :
    statusRel st (Function.update st i ERROR) := by
  intro j
  by_cases hj : j = i
  · subst hj
    exact Or.inr (Or.inr ⟨h, by simp⟩)
  · exact Or.inl (Function.update_noteq hj _ _)

theorem statusRel_markDimmerStep (kd : KDTree) (pts : List Pt) (h : ℕ → ℚ)
    (rr rn : ℚ) (acc : (ℕ → PeakStatus) × ℕ) (i : ℕ) :
    statusRel acc.1 (markDimmerStep kd pts h rr rn acc i).1 := by
  unfold markDimmerStep
  dsimp only
  split
  · exact statusRel_refl _
  · split
    · exact statusRel_refl _
    · split
      · refine statusRel_trans (statusRel_update_error (by assumption)) ?_
        exact statusRel_flipConverged _ _
      · exact statusRel_refl _

theorem statusRel_markLowSigStep (kd : KDTree) (pts : List Pt) (sig : ℕ → ℚ)
    (ms rn : ℚ) (acc : (ℕ → PeakStatus) × ℕ) (i : ℕ) :
    statusRel acc.1 (markLowSigStep kd pts sig ms rn acc i).1 := by
  unfold markLowSigStep
  dsimp only
  split
  · exact statusRel_refl _
  · split
    · exact statusRel_refl _
    · refine statusRel_trans (statusRel_update_error (by assumption)) ?_
      exact statusRel_flipConverged _ _

theorem statusRelR_runningStep (kd : KDTree) (cpts : List Pt) (radius : ℚ)
    (st : ℕ → PeakStatus) (i : ℕ) :
    statusRelR st (runningStep kd cpts radius st i) := by
  unfold runningStep
  split
  · exact statusRelR_refl _
  · split
    · rename_i hnot hlen
      push_neg at hnot
      intro j
      by_cases hj : j = i
      · subst hj
        have hconv : st j = CONVERGED := by
          cases hst : st j with
          | RUNNING => exact absurd hst hnot.1
          | CONVERGED => rfl
          | ERROR => exact absurd hst hnot.2
        exact Or.inr ⟨hconv, by simp⟩
      · exact Or.inl (Function.update_noteq hj _ _)
    · exact statusRelR_refl _

theorem statusRel_markDimmerPeaks (pts : List Pt) (h : ℕ → ℚ) (st : ℕ → PeakStatus)
    (rr rn : ℚ) : statusRel st (markDimmerPeaks pts h st rr rn).1 := by
  unfold markDimmerPeaks
  generalize List.range pts.length = l
  have h2 : ∀ (acc : (ℕ → PeakStatus) × ℕ),
      statusRel acc.1 (l.foldl (markDimmerStep (createKDTree pts) pts h rr rn) acc).1 := by
    induction l with
    | nil => exact fun acc => statusRel_refl _
    | cons i2 l2 ih2 =>
      intro acc
      rw [List.foldl_cons]
      exact statusRel_trans (statusRel_markDimmerStep (createKDTree pts) pts h rr rn acc i2)
        (ih2 (markDimmerStep (createKDTree pts) pts h rr rn acc i2))
  exact h2 (st, 0)

theorem statusRel_markLowSignificancePeaks (pts : List Pt) (sig : ℕ → ℚ)
    (st : ℕ → PeakStatus) (ms rn : ℚ) :
    statusRel st (markLowSignificancePeaks pts sig st ms rn).1 := by
  unfold markLowSignificancePeaks
  generalize List.range pts.length = l
  have h2 : ∀ (acc : (ℕ → PeakStatus) × ℕ),
      statusRel acc.1 (l.foldl (markLowSigStep (createKDTree pts) pts sig ms rn) acc).1 := by
    induction l with
    | nil => exact fun acc => statusRel_refl _
    | cons i2 l2 ih2 =>
      intro acc
      rw [List.foldl_cons]
      exact statusRel_trans (statusRel_markLowSigStep (createKDTree pts) pts sig ms rn acc i2)
        (ih2 (markLowSigStep (createKDTree pts) pts sig ms rn acc i2))
  exact h2 (st, 0)

theorem statusRelR_runningIfHasNeighbors (cpts npts : List Pt) (st : ℕ → PeakStatus)
    (radius : ℚ) : statusRelR st (runningIfHasNeighbors cpts npts st radius) := by
  unfold runningIfHasNeighbors
  generalize List.range cpts.length = l
  have h2 : ∀ (st0 : ℕ → PeakStatus),
      statusRelR st0 (l.foldl (runningStep (createKDTree npts) cpts radius) st0) := by
    induction l with
    | nil => exact fun st0 => statusRelR_refl _
    | cons i2 l2 ih2 =>
      intro st0
      rw [List.foldl_cons]
      exact statusRelR_trans (statusRelR_runningStep (createKDTree npts) cpts radius st0 i2)
        (ih2 (runningStep (createKDTree npts) cpts radius st0 i2))
  exact h2 st

theorem flipConverged_error_iff (res : List (ℕ × Pt)) (st : ℕ → PeakStatus) (j : ℕ) :
    (flipConverged res st j = ERROR ↔ st j = ERROR) := by
  rw [flipConverged_point]
  split
  · rename_i hcond
    constructor
    · intro hc; exact absurd hc (by simp)
    · intro hc; rw [hcond.1] at hc; exact absurd hc (by simp)
  · exact Iff.rfl

theorem countP_congr_mem {p q : ℕ → Bool} :
    ∀ {l : List ℕ}, (∀ a ∈ l, p a = q a) → l.countP p = l.countP q
  | [], _ => rfl
  | a :: l, h => by
    rw [List.countP_cons, List.countP_cons,
      countP_congr_mem (fun b hb => h b (List.mem_cons_of_mem a hb)),
      h a (List.mem_cons_self a l)]

/-- Counting fold: for a per-peak step that touches the counter exactly when
it newly sets peak `i` to ERROR, and changes the ERROR-ness of no other peak,
the final counter equals the initial counter plus the number of indices that
ended ERROR without starting ERROR. -/
theorem countFold (step : ((ℕ → PeakStatus) × ℕ) → ℕ → ((ℕ → PeakStatus) × ℕ))
    (hstep1 : ∀ acc i, (step acc i).2 = acc.2 +
      (if (step acc i).1 i = ERROR ∧ acc.1 i ≠ ERROR then 1 else 0))
    (hstep2 : ∀ acc i j, j ≠ i → ((step acc i).1 j = ERROR ↔ acc.1 j = ERROR)) :
    ∀ (l : List ℕ) (acc : (ℕ → PeakStatus) × ℕ), l.Nodup →
      (l.foldl step acc).2 = acc.2 +
        l.countP (fun i => decide ((l.foldl step acc).1 i = ERROR ∧ acc.1 i ≠ ERROR)) ∧
      (∀ j, j ∉ l → ((l.foldl step acc).1 j = ERROR ↔ acc.1 j = ERROR))
  | [], acc, _ => by simp
  | i :: l, acc, hnd => by
    have hnd2 : l.Nodup := (List.nodup_cons.mp hnd).2
    have hni : i ∉ l := (List.nodup_cons.mp hnd).1
    obtain ⟨ih1, ih2⟩ := countFold step hstep1 hstep2 l (step acc i) hnd2
    rw [List.foldl_cons]
    constructor
    · rw [ih1, hstep1 acc i, List.countP_cons]
      have hii : ((l.foldl step (step acc i)).1 i = ERROR ↔ (step acc i).1 i = ERROR) :=
        ih2 i hni
      have hhead : (if (step acc i).1 i = ERROR ∧ acc.1 i ≠ ERROR then 1 else 0)
          = (if (decide ((l.foldl step (step acc i)).1 i = ERROR ∧ acc.1 i ≠ ERROR)) = true
              then 1 else 0) := by
        by_cases hc : (step acc i).1 i = ERROR ∧ acc.1 i ≠ ERROR
        · rw [if_pos hc, if_pos (by simp only [decide_eq_true_eq]; exact ⟨hii.mpr hc.1, hc.2⟩)]
        · rw [if_neg hc, if_neg (by
            simp only [decide_eq_true_eq]
            intro hcon
            exact hc ⟨hii.mp hcon.1, hcon.2⟩)]
      have htail : l.countP
            (fun j => decide ((l.foldl step (step acc i)).1 j = ERROR ∧ (step acc i).1 j ≠ ERROR))
          = l.countP
            (fun j => decide ((l.foldl step (step acc i)).1 j = ERROR ∧ acc.1 j ≠ ERROR)) := by
        refine countP_congr_mem ?_
        intro a ha
        have hne : a ≠ i := fun hc => hni (hc ▸ ha)
        have hthis := hstep2 acc i a hne
        rw [decide_eq_decide]
        constructor
        · rintro ⟨h1, h2⟩
          exact ⟨h1, fun hc => h2 (hthis.mpr hc)⟩
        · rintro ⟨h1, h2⟩
          exact ⟨h1, fun hc => h2 (hthis.mp hc)⟩
      omega
    · intro j hj
      have hj1 : j ≠ i := fun hc => hj (hc ▸ List.mem_cons_self i l)
      have hj2 : j ∉ l := fun hc => hj (List.mem_cons_of_mem i hc)
      exact Iff.trans (ih2 j hj2) (hstep2 acc i j hj1)

theorem markDimmerStep_counter (kd : KDTree) (pts : List Pt) (h : ℕ → ℚ) (rr rn : ℚ)
    (acc : (ℕ → PeakStatus) × ℕ) (i : ℕ) :
    (markDimmerStep kd pts h rr rn acc i).2 = acc.2 +
      (if (markDimmerStep kd pts h rr rn acc i).1 i = ERROR ∧ acc.1 i ≠ ERROR
       then 1 else 0) := by
  unfold markDimmerStep
  dsimp only
  split
  · rename_i herr
    rw [if_neg (fun hc => hc.2 herr)]
    omega
  · rename_i herr
    split
    · rw [if_neg (fun hc => hc.2 hc.1)]
      omega
    · split
      · have hcond : flipConverged (kd_nearest_range kd (posAt pts i) rn)
            (Function.update acc.1 i ERROR) i = ERROR ∧ acc.1 i ≠ ERROR := by
          refine ⟨?_, herr⟩
          rw [flipConverged_error_iff]
          simp
        rw [if_pos hcond]
      · rw [if_neg (fun hc => hc.2 hc.1)]
        omega

theorem markDimmerStep_other (kd : KDTree) (pts : List Pt) (h : ℕ → ℚ) (rr rn : ℚ)
    (acc : (ℕ → PeakStatus) × ℕ) (i j : ℕ) (hne : j ≠ i) :
    ((markDimmerStep kd pts h rr rn acc i).1 j = ERROR ↔ acc.1 j = ERROR) := by
  unfold markDimmerStep
  dsimp only
  split
  · exact Iff.rfl
  · split
    · exact Iff.rfl
    · split
      · rw [flipConverged_error_iff, Function.update_noteq hne]
      · exact Iff.rfl

theorem markDimmerPeaks_count (pts : List Pt) (h : ℕ → ℚ) (st : ℕ → PeakStatus)
    (rr rn : ℚ) :
    (markDimmerPeaks pts h st rr rn).2 =
      (List.range pts.length).countP
        (fun i => decide ((markDimmerPeaks pts h st rr rn).1 i = ERROR ∧ st i ≠ ERROR)) := by
  have hc := countFold (markDimmerStep (createKDTree pts) pts h rr rn)
    (markDimmerStep_counter (createKDTree pts) pts h rr rn)
    (markDimmerStep_other (createKDTree pts) pts h rr rn)
    (List.range pts.length) (st, 0) (List.nodup_range _)
  unfold markDimmerPeaks
  simpa using hc.1

/-! ### `runningIfHasNeighbors` pointwise behaviour -/

theorem runningStep_other (kd : KDTree) (cpts : List Pt) (radius : ℚ)
    (s : ℕ → PeakStatus) (i k : ℕ) (hk : k ≠ i) :
    runningStep kd cpts radius s i k = s k := by
  unfold runningStep
  split
  · rfl
  · split
    · exact Function.update_noteq hk _ _
    · rfl

theorem runningStep_self (kd : KDTree) (cpts : List Pt) (radius : ℚ)
    (s : ℕ → PeakStatus) (i : ℕ) :
    runningStep kd cpts radius s i i =
      if s i = RUNNING ∨ s i = ERROR then s i
      else if 0 < (kd_nearest_range kd (posAt cpts i) radius).length then RUNNING
      else s i := by
  unfold runningStep
  split
  · rfl
  · split
    · exact Function.update_same _ _ _
    · rfl

theorem foldl_running_not_mem (kd : KDTree) (cpts : List Pt) (radius : ℚ) :
    ∀ (l : List ℕ) (s : ℕ → PeakStatus) (j : ℕ), j ∉ l →
      (l.foldl (runningStep kd cpts radius) s) j = s j
  | [], s, j, _ => rfl
  | i :: l, s, j, hj => by
    have hj1 : j ≠ i := fun hc => hj (hc ▸ List.mem_cons_self i l)
    have hj2 : j ∉ l := fun hc => hj (List.mem_cons_of_mem i hc)
    rw [List.foldl_cons, foldl_running_not_mem kd cpts radius l _ j hj2,
      runningStep_other kd cpts radius s i j hj1]

theorem foldl_running_mem (kd : KDTree) (cpts : List Pt) (radius : ℚ) :
    ∀ (l : List ℕ) (s : ℕ → PeakStatus) (j : ℕ), l.Nodup → j ∈ l →
      (l.foldl (runningStep kd cpts radius) s) j = runningStep kd cpts radius s j j
  | [], s, j, _, hj => by simp at hj
  | i :: l, s, j, hnd, hj => by
    have hni : i ∉ l := (List.nodup_cons.mp hnd).1
    have hnd2 : l.Nodup := (List.nodup_cons.mp hnd).2
    rw [List.foldl_cons]
    by_cases hji : j = i
    · subst hji
      rw [foldl_running_not_mem kd cpts radius l _ j hni]
    · have hjl : j ∈ l := by
        rcases List.mem_cons.mp hj with hc | hc
        · exact absurd hc hji
        · exact hc
      rw [foldl_running_mem kd cpts radius l _ j hnd2 hjl]
      have hagree : runningStep kd cpts radius s i j = s j :=
        runningStep_other kd cpts radius s i j hji
      rw [runningStep_self, runningStep_self, hagree]

theorem runningIfHasNeighbors_point (cpts npts : List Pt) (st : ℕ → PeakStatus)
    (radius : ℚ) (j : ℕ) :
    (j < cpts.length →
      runningIfHasNeighbors cpts npts st radius j =
        (if st j = RUNNING ∨ st j = ERROR then st j
         else if 0 < (kd_nearest_range (createKDTree npts) (posAt cpts j) radius).length
           then RUNNING else st j)) ∧
    (cpts.length ≤ j → runningIfHasNeighbors cpts npts st radius j = st j) := by
  constructor
  · intro hlt
    unfold runningIfHasNeighbors
    rw [foldl_running_mem (createKDTree npts) cpts radius (List.range cpts.length) st j
      (List.nodup_range _) (List.mem_range.mpr hlt)]
    exact runningStep_self _ _ _ _ _
  · intro hge
    unfold runningIfHasNeighbors
    exact foldl_running_not_mem (createKDTree npts) cpts radius (List.range cpts.length) st j
      (fun hc => absurd (List.mem_range.mp hc) (not_lt.mpr hge))

/-! ### `nearestKDTree` scan lemmas -/

theorem scanMin_fold_spec (q : Pt) : ∀ (res : List (ℕ × Pt)) (acc : ℤ × ℚ),
    (res.foldl (fun acc e =>
        if sqDist e.2 q < acc.2 then ((e.1 : ℤ), sqDist e.2 q) else acc) acc = acc ∨
      ∃ e ∈ res, res.foldl (fun acc e =>
        if sqDist e.2 q < acc.2 then ((e.1 : ℤ), sqDist e.2 q) else acc) acc
          = ((e.1 : ℤ), sqDist e.2 q)) ∧
    (res.foldl (fun acc e =>
        if sqDist e.2 q < acc.2 then ((e.1 : ℤ), sqDist e.2 q) else acc) acc).2 ≤ acc.2 ∧
    (∀ e ∈ res, (res.foldl (fun acc e =>
        if sqDist e.2 q < acc.2 then ((e.1 : ℤ), sqDist e.2 q) else acc) acc).2
      ≤ sqDist e.2 q)
  | [], acc => ⟨Or.inl rfl, le_refl _, fun e he => by simp at he⟩
  | e :: res, acc => by
    obtain ⟨ih1, ih2, ih3⟩ := scanMin_fold_spec q res
      (if sqDist e.2 q < acc.2 then ((e.1 : ℤ), sqDist e.2 q) else acc)
    have hstep_le : (if sqDist e.2 q < acc.2 then ((e.1 : ℤ), sqDist e.2 q) else acc).2
        ≤ acc.2 := by
      split
      · exact le_of_lt (by assumption)
      · exact le_refl _
    have hstep_dd : (if sqDist e.2 q < acc.2 then ((e.1 : ℤ), sqDist e.2 q) else acc).2
        ≤ sqDist e.2 q := by
      split
      · exact le_refl _
      · exact le_of_not_lt (by assumption)
    rw [List.foldl_cons]
    refine ⟨?_, le_trans ih2 hstep_le, ?_⟩
    · rcases ih1 with h | ⟨e2, he2, hfe⟩
      · by_cases hc : sqDist e.2 q < acc.2
        · refine Or.inr ⟨e, List.mem_cons_self e res, ?_⟩
          rw [h, if_pos hc]
        · refine Or.inl ?_
          rw [h, if_neg hc]
      · exact Or.inr ⟨e2, List.mem_cons_of_mem e he2, hfe⟩
    · intro e2 he2
      rcases List.mem_cons.mp he2 with h | h
      · subst h
        exact le_trans ih2 hstep_dd
      · exact ih3 e2 h

theorem scanMin_found (q : Pt) (radius : ℚ) (res : List (ℕ × Pt)) (hne : res ≠ [])
    (hall : ∀ e ∈ res, sqDist e.2 q ≤ radius * radius) :
    ∃ e ∈ res, scanMin q radius res = ((e.1 : ℤ), sqDist e.2 q) := by
  obtain ⟨h1, h2, h3⟩ := scanMin_fold_spec q res (-1, radius * radius + 1 / 10)
  rcases h1 with h | h
  · exfalso
    obtain ⟨e, he⟩ : ∃ e, e ∈ res := by
      cases res with
      | nil => exact absurd rfl hne
      | cons a l => exact ⟨a, List.mem_cons_self a l⟩
    have ha := h3 e he
    rw [h] at ha
    have ha2 : radius * radius + 1 / 10 ≤ sqDist e.2 q := ha
    have hb := hall e he
    linarith
  · exact h

theorem scanMin_sound (q : Pt) (radius : ℚ) (res : List (ℕ × Pt)) (e : ℕ × Pt)
    (he : e ∈ res) : (scanMin q radius res).2 ≤ sqDist e.2 q :=
  (scanMin_fold_spec q res (-1, radius * radius + 1 / 10)).2.2 e he

/-! ### Local Maxima Scanner lemmas -/

theorem mem_intRange {a lo hi : ℤ} : a ∈ intRange lo hi ↔ lo ≤ a ∧ a ≤ hi := by
  unfold intRange
  constructor
  · intro h
    obtain ⟨k, hk, hv⟩ := List.mem_map.mp h
    have hk2 := List.mem_range.mp hk
    rw [Int.lt_toNat] at hk2
    omega
  · rintro ⟨h1, h2⟩
    refine List.mem_map.mpr ⟨(a - lo).toNat, List.mem_range.mpr ?_, ?_⟩
    · rw [Int.lt_toNat, Int.toNat_of_nonneg (by omega : (0:ℤ) ≤ a - lo)]
      omega
    · rw [Int.toNat_of_nonneg (by omega : (0:ℤ) ≤ a - lo)]
      omega


theorem isLocalMaxima_true_iff (d : FlmData) (cur : ℚ) (sz ez sy cy ey sx cx ex : ℤ) :
    isLocalMaxima d cur sz ez sy cy ey sx cx ex = true ↔
      ∀ zi yi xi : ℤ, sz ≤ zi → zi ≤ ez → sy ≤ yi → yi ≤ ey → sx ≤ xi → xi ≤ ex →
        ¬ flmDisq d cur cy cx zi yi xi := by
  unfold isLocalMaxima
  simp only [List.all_eq_true]
  constructor
  · intro H zi yi xi h1 h2 h3 h4 h5 h6 hdq
    have hb := H zi (mem_intRange.mpr ⟨h1, h2⟩) yi (mem_intRange.mpr ⟨h3, h4⟩)
      xi (mem_intRange.mpr ⟨h5, h6⟩)
    obtain ⟨hrr, hcase⟩ := hdq
    rw [if_pos hrr] at hb
    rcases hcase with ⟨hy, hx, himg⟩ | ⟨hnot, himg⟩
    · rw [if_pos ⟨hy, hx⟩, decide_eq_true_eq] at hb
      exact hb himg
    · rw [if_neg hnot, decide_eq_true_eq] at hb
      exact hb himg
  · intro H zi hzi yi hyi xi hxi
    obtain ⟨hz1, hz2⟩ := mem_intRange.mp hzi
    obtain ⟨hy1, hy2⟩ := mem_intRange.mp hyi
    obtain ⟨hx1, hx2⟩ := mem_intRange.mp hxi
    have hnd := H zi yi xi hz1 hz2 hy1 hy2 hx1 hx2
    split
    · rename_i hrr
      split
      · rename_i hcmp
        rw [decide_eq_true_eq]
        intro himg
        exact hnd ⟨hrr, Or.inl ⟨hcmp.1, hcmp.2, himg⟩⟩
      · rename_i hcmp
        rw [decide_eq_true_eq]
        intro himg
        exact hnd ⟨hrr, Or.inr ⟨hcmp, himg⟩⟩
    · rfl


theorem flmVisit_inv (d : FlmData) (s : FlmState) (p : ℤ × ℤ × ℤ)
    (h : flmInv d s) : flmInv d (flmVisit d s p) := by
  obtain ⟨h1, h2, h3⟩ := h
  unfold flmVisit
  split
  · exact ⟨h1, h2, h3⟩
  · rename_i hhalt
    have hfalse : s.halted = false := by
      cases hs : s.halted
      · rfl
      · exact absurd hs hhalt
    have hlt : s.np < d.n_peaks := h2 hfalse
    dsimp only
    split
    · split
      · -- the pixel is a local maximum: one entry is written
        split
        · rename_i hcap
          refine ⟨by simp [h1], ?_, ?_⟩
          · intro hc
            simp at hc
          · intro _
            dsimp only at hcap ⊢
            omega
        · rename_i hcap
          refine ⟨by simp [h1], ?_, ?_⟩
          · intro _
            dsimp only at hcap ⊢
            omega
          · intro hc
            dsimp only at hc
            rw [hfalse] at hc
            simp at hc
      · -- not a local maximum: the state is unchanged up to the halt test
        split
        · rename_i hcap
          omega
        · exact ⟨h1, h2, h3⟩
    · exact ⟨h1, h2, h3⟩

theorem findLocalMaxima_inv (d : FlmData) (hcap : 1 ≤ d.n_peaks) :
    flmInv d (findLocalMaxima d) := by
  unfold findLocalMaxima
  have hgen : ∀ (l : List (ℤ × ℤ × ℤ)) (s : FlmState), flmInv d s →
      flmInv d (l.foldl (flmVisit d) s) := by
    intro l
    induction l with
    | nil => exact fun s hs => hs
    | cons p l ih => exact fun s hs => ih _ (flmVisit_inv d s p hs)
  exact hgen _ _ ⟨rfl, fun _ => hcap, fun hc => by simp at hc⟩

/-! ### `markDimmerPeaks` step equations -/

theorem sqDist_comm (p q : Pt) : sqDist p q = sqDist q p := by
  unfold sqDist; ring

theorem two_le_length_of_mem_ne {l : List (ℕ × Pt)} {a b : ℕ × Pt}
    (ha : a ∈ l) (hb : b ∈ l) (hab : a ≠ b) : 2 ≤ l.length := by
  have hb2 : b ∈ l.erase a := (List.mem_erase_of_ne (fun hc => hab hc.symm)).mpr hb
  have h1 : 1 ≤ (l.erase a).length := List.length_pos.mpr (fun hc => by
    rw [hc] at hb2; simp at hb2)
  have h2 := List.length_erase_of_mem ha
  omega

theorem anyBrighter_iff (res : List (ℕ × Pt)) (h : ℕ → ℚ) (i : ℕ) :
    (res.any fun e => h e.1 > h i) = true ↔ ∃ e ∈ res, h i < h e.1 := by
  simp [List.any_eq_true]

theorem markDimmerStep_skip_error {kd : KDTree} {pts : List Pt} {h : ℕ → ℚ} {rr rn : ℚ}
    {acc : (ℕ → PeakStatus) × ℕ} {i : ℕ} (he : acc.1 i = ERROR) :
    markDimmerStep kd pts h rr rn acc i = acc := by
  unfold markDimmerStep
  dsimp only
  rw [if_pos he]

theorem markDimmerStep_skip_single {kd : KDTree} {pts : List Pt} {h : ℕ → ℚ} {rr rn : ℚ}
    {acc : (ℕ → PeakStatus) × ℕ} {i : ℕ} (he : acc.1 i ≠ ERROR)
    (hlen : (kd_nearest_range kd (posAt pts i) rr).length < 2) :
    markDimmerStep kd pts h rr rn acc i = acc := by
  unfold markDimmerStep
  dsimp only
  rw [if_neg he, if_pos hlen]

theorem markDimmerStep_no_brighter {kd : KDTree} {pts : List Pt} {h : ℕ → ℚ} {rr rn : ℚ}
    {acc : (ℕ → PeakStatus) × ℕ} {i : ℕ} (he : acc.1 i ≠ ERROR)
    (hnb : ¬ ∃ e ∈ kd_nearest_range kd (posAt pts i) rr, h i < h e.1) :
    markDimmerStep kd pts h rr rn acc i = acc := by
  unfold markDimmerStep
  dsimp only
  rw [if_neg he]
  split
  · rfl
  · rw [if_neg (by rw [anyBrighter_iff]; exact hnb)]

theorem markDimmerStep_marked {kd : KDTree} {pts : List Pt} {h : ℕ → ℚ} {rr rn : ℚ}
    {acc : (ℕ → PeakStatus) × ℕ} {i : ℕ} (he : acc.1 i ≠ ERROR)
    (hlen : ¬ (kd_nearest_range kd (posAt pts i) rr).length < 2)
    (hb : ∃ e ∈ kd_nearest_range kd (posAt pts i) rr, h i < h e.1) :
    markDimmerStep kd pts h rr rn acc i =
      (flipConverged (kd_nearest_range kd (posAt pts i) rn)
        (Function.update acc.1 i ERROR), acc.2 + 1) := by
  unfold markDimmerStep
  dsimp only
  rw [if_neg he, if_neg hlen, if_pos (by rw [anyBrighter_iff]; exact hb)]

theorem markDimmer_three_peaks (p0 p1 p2 : Pt) (h : ℕ → ℚ) (st : ℕ → PeakStatus)
    (rr rn : ℚ) (hrr : 0 < rr)
    (hh0 : h 0 = 10) (hh1 : h 1 = 5) (hh2 : h 2 = 3)
    (d01 : sqDist p0 p1 < rr * rr) (d02 : sqDist p0 p2 < rr * rr)
    (d12 : sqDist p1 p2 < rr * rr)
    (s0 : st 0 ≠ ERROR) (s1 : st 1 ≠ ERROR) (s2 : st 2 ≠ ERROR) :
    (markDimmerPeaks [p0, p1, p2] h st rr rn).1 0 ≠ ERROR ∧
    (markDimmerPeaks [p0, p1, p2] h st rr rn).1 1 = ERROR ∧
    (markDimmerPeaks [p0, p1, p2] h st rr rn).1 2 = ERROR := by
  have hrr2 : (0 : ℚ) < rr * rr := mul_pos hrr hrr
  have hrrle : (0 : ℚ) ≤ rr := le_of_lt hrr
  have hW : withIdx 0 [p0, p1, p2] = [(0, p0), (1, p1), (2, p2)] := rfl
  have hq0 : posAt [p0, p1, p2] 0 = p0 := rfl
  have hq1 : posAt [p0, p1, p2] 1 = p1 := rfl
  have hq2 : posAt [p0, p1, p2] 2 = p2 := rfl
  set kd := createKDTree [p0, p1, p2] with hkd
  -- memberships of all three peaks in each removal-range query
  have hmem : ∀ (j : ℕ) (pj : Pt) (i : ℕ) (pi : Pt), (j, pj) ∈ withIdx 0 [p0, p1, p2] →
      sqDist pj pi < rr * rr →
      (j, pj) ∈ kd_nearest_range kd pi rr := by
    intro j pj i pi hj hd
    exact kd_nearest_range_complete hrrle hj hd
  have hm00 : (0, p0) ∈ kd_nearest_range kd p0 rr :=
    hmem 0 p0 0 p0 (by rw [hW]; simp) (by rw [sqDist_self]; exact hrr2)
  have hm10 : (1, p1) ∈ kd_nearest_range kd p0 rr :=
    hmem 1 p1 0 p0 (by rw [hW]; simp) (by rw [sqDist_comm]; exact d01)
  have hm01 : (0, p0) ∈ kd_nearest_range kd p1 rr :=
    hmem 0 p0 1 p1 (by rw [hW]; simp) d01
  have hm11 : (1, p1) ∈ kd_nearest_range kd p1 rr :=
    hmem 1 p1 1 p1 (by rw [hW]; simp) (by rw [sqDist_self]; exact hrr2)
  have hm12 : (1, p1) ∈ kd_nearest_range kd p2 rr :=
    hmem 1 p1 2 p2 (by rw [hW]; simp) d12
  have hm22 : (2, p2) ∈ kd_nearest_range kd p2 rr :=
    hmem 2 p2 2 p2 (by rw [hW]; simp) (by rw [sqDist_self]; exact hrr2)
  -- each query has at least two results
  have hlen0 : ¬ (kd_nearest_range kd (posAt [p0, p1, p2] 0) rr).length < 2 := by
    rw [hq0]; push_neg
    exact two_le_length_of_mem_ne hm00 hm10 (by simp)
  have hlen1 : ¬ (kd_nearest_range kd (posAt [p0, p1, p2] 1) rr).length < 2 := by
    rw [hq1]; push_neg
    exact two_le_length_of_mem_ne hm01 hm11 (by simp)
  have hlen2 : ¬ (kd_nearest_range kd (posAt [p0, p1, p2] 2) rr).length < 2 := by
    rw [hq2]; push_neg
    exact two_le_length_of_mem_ne hm12 hm22 (by simp)
  -- the brightest peak has no brighter neighbour
  have hnb0 : ¬ ∃ e ∈ kd_nearest_range kd (posAt [p0, p1, p2] 0) rr, h 0 < h e.1 := by
    rw [hq0]
    rintro ⟨e, he, hbr⟩
    have hs := (kd_nearest_range_sound he).1
    rw [hW] at hs
    rcases (by simpa using hs : e = (0, p0) ∨ e = (1, p1) ∨ e = (2, p2)) with hc | hc | hc <;>
      rw [hc] at hbr <;> simp only [hh0, hh1, hh2] at hbr <;> linarith
  -- the dimmer peaks see the brighter ones
  have hb1 : ∃ e ∈ kd_nearest_range kd (posAt [p0, p1, p2] 1) rr, h 1 < h e.1 := by
    rw [hq1]
    exact ⟨(0, p0), hm01, by rw [hh0, hh1]; norm_num⟩
  have hb2 : ∃ e ∈ kd_nearest_range kd (posAt [p0, p1, p2] 2) rr, h 2 < h e.1 := by
    rw [hq2]
    exact ⟨(1, p1), hm12, by rw [hh1, hh2]; norm_num⟩
  -- unfold the three loop iterations
  have hM : markDimmerPeaks [p0, p1, p2] h st rr rn =
      markDimmerStep kd [p0, p1, p2] h rr rn
        (markDimmerStep kd [p0, p1, p2] h rr rn
          (markDimmerStep kd [p0, p1, p2] h rr rn (st, 0) 0) 1) 2 := rfl
  have hstep0 : markDimmerStep kd [p0, p1, p2] h rr rn (st, 0) 0 = (st, 0) :=
    markDimmerStep_no_brighter s0 hnb0
  set stA := flipConverged (kd_nearest_range kd (posAt [p0, p1, p2] 1) rn)
    (Function.update st 1 ERROR) with hstA
  have hstep1 : markDimmerStep kd [p0, p1, p2] h rr rn (st, 0) 1 = (stA, 1) :=
    markDimmerStep_marked s1 hlen1 hb1
  have hA1 : stA 1 = ERROR := by
    rw [hstA]
    exact (flipConverged_error_iff _ _ 1).mpr (Function.update_same _ _ _)
  have hA0 : stA 0 ≠ ERROR := by
    rw [hstA]
    intro hc
    have := (flipConverged_error_iff _ _ 0).mp hc
    rw [Function.update_noteq (by norm_num) _ _] at this
    exact s0 this
  have hA2 : stA 2 ≠ ERROR := by
    rw [hstA]
    intro hc
    have := (flipConverged_error_iff _ _ 2).mp hc
    rw [Function.update_noteq (by norm_num) _ _] at this
    exact s2 this
  set stB := flipConverged (kd_nearest_range kd (posAt [p0, p1, p2] 2) rn)
    (Function.update stA 2 ERROR) with hstB
  have hstep2 : markDimmerStep kd [p0, p1, p2] h rr rn (stA, 1) 2 = (stB, 2) :=
    markDimmerStep_marked hA2 hlen2 hb2
  have hfin : markDimmerPeaks [p0, p1, p2] h st rr rn = (stB, 2) := by
    rw [hM, hstep0, hstep1, hstep2]
  rw [hfin]
  refine ⟨?_, ?_, ?_⟩
  · intro hc
    have := (flipConverged_error_iff _ _ 0).mp hc
    rw [Function.update_noteq (by norm_num) _ _] at this
    exact hA0 this
  · exact (flipConverged_error_iff _ _ 1).mpr
      (by rw [Function.update_noteq (by norm_num) _ _]; exact hA1)
  · exact (flipConverged_error_iff _ _ 2).mpr (Function.update_same _ _ _)

/-! ### `nearestKDTree` per-query helpers -/

theorem nearestMatch_empty (pts : List Pt) (q : Pt) (radius : ℚ)
    (hres : kd_nearest_range (createKDTree pts) q radius = []) :
    nearestMatch (createKDTree pts) q radius = (-1, -1) := by
  unfold nearestMatch
  rw [hres]
  have h : scanMin q radius [] = (-1, radius * radius + 1 / 10) := rfl
  rw [h]
  rw [if_neg (show ¬ (0 : ℤ) ≤ ((-1 : ℤ), radius * radius + 1 / 10).1 by norm_num)]

theorem nearestMatch_found (pts : List Pt) (q : Pt) (radius : ℚ)
    (hne : kd_nearest_range (createKDTree pts) q radius ≠ []) :
    ∃ e ∈ kd_nearest_range (createKDTree pts) q radius,
      nearestMatch (createKDTree pts) q radius = ((e.1 : ℤ), sqDist e.2 q) ∧
      (∀ e2 ∈ kd_nearest_range (createKDTree pts) q radius,
        sqDist e.2 q ≤ sqDist e2.2 q) := by
  have hall : ∀ e ∈ kd_nearest_range (createKDTree pts) q radius,
      sqDist e.2 q ≤ radius * radius := fun e he => (kd_nearest_range_sound he).2
  obtain ⟨e, he, heq⟩ := scanMin_found q radius _ hne hall
  refine ⟨e, he, ?_, ?_⟩
  · unfold nearestMatch
    rw [heq]
    rw [if_pos (show (0 : ℤ) ≤ ((e.1 : ℤ), sqDist e.2 q).1 from Int.natCast_nonneg e.1)]
  · intro e2 he2
    have hs := scanMin_sound q radius _ e2 he2
    rw [heq] at hs
    exact hs

/-! ## Claims -/

/-- C1, counterexample to the claim as stated: in the tree built from
(0,5), (0,0), the point (0,0) has squared distance exactly r² = 1 from the
query (-1,0), yet the range query returns the empty list — the far subtree is
pruned by the strict `fabs(dx) < range` test, so the claimed exact set
equality (≤ r², no omissions) fails at the boundary. -/
theorem C1_counterexample :
    (0 : ℚ) ≤ 1 ∧
    (1, Pt.mk 0 0) ∈ withIdx 0 [Pt.mk 0 5, Pt.mk 0 0] ∧
    sqDist (Pt.mk 0 0) (Pt.mk (-1) 0) ≤ 1 * 1 ∧
    kd_nearest_range (createKDTree [Pt.mk 0 5, Pt.mk 0 0]) (Pt.mk (-1) 0) 1 = [] :=
  of_decide_eq_true (by with_unfolding_all rfl)

/-- C1 (amended): for every tree built by `createKDTree` (payload = insertion
index), query point q and radius r ≥ 0, the range query returns only inserted
points with squared distance ≤ r², contains every inserted point with squared
distance strictly less than r², and contains no entry twice; points at
squared distance exactly r² may be omitted. When every inserted point is
strictly within r of q (in particular for any radius exceeding the
bounding-region diagonal when q lies in the region), every inserted point is
returned exactly once. -/
theorem C1_range_query :
    ∀ (pts : List Pt) (q : Pt) (r : ℚ), 0 ≤ r →
      (∀ e ∈ kd_nearest_range (createKDTree pts) q r,
        e ∈ withIdx 0 pts ∧ sqDist e.2 q ≤ r * r) ∧
      (∀ e ∈ withIdx 0 pts, sqDist e.2 q < r * r →
        e ∈ kd_nearest_range (createKDTree pts) q r) ∧
      (∀ e, cnt e (kd_nearest_range (createKDTree pts) q r) ≤ 1) ∧
      ((∀ e ∈ withIdx 0 pts, sqDist e.2 q < r * r) →
        ∀ e ∈ withIdx 0 pts, cnt e (kd_nearest_range (createKDTree pts) q r) = 1) := by
  intro pts q r hr
  refine ⟨fun e he => kd_nearest_range_sound he,
    fun e he hlt => kd_nearest_range_complete hr he hlt,
    kd_nearest_range_cnt pts q r, ?_⟩
  intro hall e he
  have h1 := kd_nearest_range_cnt pts q r e
  have h2 := cnt_pos_of_mem (kd_nearest_range_complete hr he (hall e he))
  omega

/-- Witness for C1: concrete two-point tree, radius 5 — the point (0,0) is
returned exactly once. -/
theorem C1_witness :
    (0, Pt.mk 0 0) ∈ kd_nearest_range (createKDTree [Pt.mk 0 0, Pt.mk 2 0]) (Pt.mk 0 0) 5 ∧
    cnt (0, Pt.mk 0 0) (kd_nearest_range (createKDTree [Pt.mk 0 0, Pt.mk 2 0]) (Pt.mk 0 0) 5)
      = 1 := by
  have h := C1_range_query [Pt.mk 0 0, Pt.mk 2 0] (Pt.mk 0 0) 5 (by norm_num)
  exact ⟨h.2.1 (0, Pt.mk 0 0) (of_decide_eq_true (by with_unfolding_all rfl))
      (of_decide_eq_true (by with_unfolding_all rfl)),
    h.2.2.2 (of_decide_eq_true (by with_unfolding_all rfl)) (0, Pt.mk 0 0)
      (of_decide_eq_true (by with_unfolding_all rfl))⟩

/-- C4: ERROR is terminal for all three status-mutating operations, and the
only transitions any of them performs are CONVERGED → RUNNING and
(non-ERROR) → ERROR; `runningIfHasNeighbors` additionally never sets ERROR at
all. -/
theorem C4_error_terminal :
    (∀ (pts : List Pt) (h : ℕ → ℚ) (st : ℕ → PeakStatus) (rr rn : ℚ) (j : ℕ),
      (st j = ERROR → (markDimmerPeaks pts h st rr rn).1 j = ERROR) ∧
      ((markDimmerPeaks pts h st rr rn).1 j = st j ∨
        (st j = CONVERGED ∧ (markDimmerPeaks pts h st rr rn).1 j = RUNNING) ∨
        (st j ≠ ERROR ∧ (markDimmerPeaks pts h st rr rn).1 j = ERROR))) ∧
    (∀ (pts : List Pt) (sig : ℕ → ℚ) (st : ℕ → PeakStatus) (ms rn : ℚ) (j : ℕ),
      (st j = ERROR → (markLowSignificancePeaks pts sig st ms rn).1 j = ERROR) ∧
      ((markLowSignificancePeaks pts sig st ms rn).1 j = st j ∨
        (st j = CONVERGED ∧ (markLowSignificancePeaks pts sig st ms rn).1 j = RUNNING) ∨
        (st j ≠ ERROR ∧ (markLowSignificancePeaks pts sig st ms rn).1 j = ERROR))) ∧
    (∀ (cpts npts : List Pt) (st : ℕ → PeakStatus) (radius : ℚ) (j : ℕ),
      (st j = ERROR → runningIfHasNeighbors cpts npts st radius j = ERROR) ∧
      (runningIfHasNeighbors cpts npts st radius j = st j ∨
        (st j = CONVERGED ∧ runningIfHasNeighbors cpts npts st radius j = RUNNING))) := by
  refine ⟨?_, ?_, ?_⟩
  · intro pts h st rr rn j
    have hrel := statusRel_markDimmerPeaks pts h st rr rn
    exact ⟨fun he => statusRel_error_stable hrel he, hrel j⟩
  · intro pts sig st ms rn j
    have hrel := statusRel_markLowSignificancePeaks pts sig st ms rn
    exact ⟨fun he => statusRel_error_stable hrel he, hrel j⟩
  · intro cpts npts st radius j
    have hrel := statusRelR_runningIfHasNeighbors cpts npts st radius
    refine ⟨?_, hrel j⟩
    intro he
    rcases hrel j with hc | ⟨hc1, hc2⟩
    · exact hc.trans he
    · rw [he] at hc1
      exact absurd hc1 (by simp)

/-- Witness for C4: a peak that is already ERROR stays ERROR through each of
the three operations on a concrete configuration. -/
theorem C4_witness :
    (markDimmerPeaks [Pt.mk 0 0, Pt.mk 1 0] (fun _ => 1) (fun _ => ERROR) 2 2).1 0 = ERROR ∧
    (markLowSignificancePeaks [Pt.mk 0 0] (fun _ => 0) (fun _ => ERROR) 1 1).1 0 = ERROR ∧
    runningIfHasNeighbors [Pt.mk 0 0] [Pt.mk 0 0] (fun _ => ERROR) 1 0 = ERROR :=
  ⟨(C4_error_terminal.1 [Pt.mk 0 0, Pt.mk 1 0] (fun _ => 1) (fun _ => ERROR) 2 2 0).1 rfl,
   (C4_error_terminal.2.1 [Pt.mk 0 0] (fun _ => 0) (fun _ => ERROR) 1 1 0).1 rfl,
   (C4_error_terminal.2.2 [Pt.mk 0 0] [Pt.mk 0 0] (fun _ => ERROR) 1 0).1 rfl⟩

/-- C6, counterexample to "first-inserted wins ties": (1,5) and (-1,5) are
inserted second and third and are both at squared distance 1 from the query
(0,5), strictly closer than the root (0,0); the search returns index 2
(the later-inserted point, reached through the nearer subtree first), not
index 1. -/
theorem C6_counterexample :
    sqDist (Pt.mk 1 5) (Pt.mk 0 5) = sqDist (Pt.mk (-1) 5) (Pt.mk 0 5) ∧
    sqDist (Pt.mk 1 5) (Pt.mk 0 5) < sqDist (Pt.mk 0 0) (Pt.mk 0 5) ∧
    kd_nearest (createKDTree [Pt.mk 0 0, Pt.mk 1 5, Pt.mk (-1) 5]) (Pt.mk 0 5)
      = some (2, Pt.mk (-1) 5) :=
  of_decide_eq_true (by with_unfolding_all rfl)

/-- C6 (amended): for every nonempty point list, `kd_nearest` on the built
tree returns an inserted point (with its payload index) minimizing the
Euclidean (squared) distance to the query; when several points are exactly
equidistant the winner is decided by traversal order (nearer subtree first,
root as initial candidate, strict improvement only), which is not in general
the first-inserted point. -/
theorem C6_nearest :
    ∀ (pts : List Pt) (q : Pt), pts ≠ [] →
      ∃ ip : ℕ × Pt, kd_nearest (createKDTree pts) q = some ip ∧ ip ∈ withIdx 0 pts ∧
        ∀ e ∈ withIdx 0 pts, sqDist ip.2 q ≤ sqDist e.2 q :=
  fun pts q hne => kd_nearest_createKDTree pts q hne

/-- Witness for C6: the single-point tree returns that point. -/
theorem C6_witness :
    kd_nearest (createKDTree [Pt.mk 3 4]) (Pt.mk 0 0) = some (0, Pt.mk 3 4) := by
  obtain ⟨ip, h1, h2, h3⟩ := C6_nearest [Pt.mk 3 4] (Pt.mk 0 0) (by simp)
  have hip : ip = (0, Pt.mk 3 4) := by
    have hw : withIdx 0 [Pt.mk 3 4] = [(0, Pt.mk 3 4)] := rfl
    rw [hw] at h2
    simpa using h2
  rw [h1, hip]

/-- C9: a nearest-neighbour query against an empty index returns "no result"
(the C code returns a null pointer) rather than failing, and against a
non-empty index it returns a result set with exactly one entry. -/
theorem C9_empty_index :
    (∀ q : Pt, kd_nearest kd_create q = none) ∧
    (∀ (pts : List Pt) (q : Pt), pts ≠ [] →
      ∃ ip : ℕ × Pt, kd_nearest (createKDTree pts) q = some ip) := by
  refine ⟨fun q => rfl, fun pts q hne => ?_⟩
  obtain ⟨ip, h1, _, _⟩ := kd_nearest_createKDTree pts q hne
  exact ⟨ip, h1⟩

/-- Witness for C9: the empty tree yields `none`, a one-point tree yields a
result. -/
theorem C9_witness :
    kd_nearest kd_create (Pt.mk 0 0) = none ∧
    kd_nearest (createKDTree [Pt.mk 1 2]) (Pt.mk 0 0) ≠ none := by
  refine ⟨C9_empty_index.1 (Pt.mk 0 0), ?_⟩
  obtain ⟨ip, hip⟩ := C9_empty_index.2 [Pt.mk 1 2] (Pt.mk 0 0) (by simp)
  rw [hip]
  simp

/-- C5, counterexample to the claim as stated: the index point (0,0) lies
within max_radius of the query (-1,0) (squared distance exactly 1 = radius²),
yet `nearestKDTree` reports the no-match sentinel (-1, -1), because the
boundary point is pruned from the range query. -/
theorem C5_counterexample :
    sqDist (Pt.mk 0 0) (Pt.mk (-1) 0) ≤ 1 * 1 ∧
    (1, Pt.mk 0 0) ∈ withIdx 0 [Pt.mk 0 5, Pt.mk 0 0] ∧
    nearestMatch (createKDTree [Pt.mk 0 5, Pt.mk 0 0]) (Pt.mk (-1) 0) 1 = (-1, -1) :=
  of_decide_eq_true (by with_unfolding_all rfl)

/-- C5 (amended): per query point, `nearestKDTree` reports the sentinel
(-1, -1) exactly when the pruned range query returns nothing, in which case
no index point lies strictly within max_radius; otherwise the reported index
and squared distance belong to an inserted point within max_radius whose
squared distance is minimal among all range-query results, hence minimal
among all index points strictly within max_radius; a query point coinciding
with an index point (max_radius > 0, position unique among the index points)
yields squared distance 0 — i.e. distance 0.0 — and that point's index. The C
code stores `sqrt` of the squared distance reported here. -/
theorem C5_nearest_match :
    (∀ (pts : List Pt) (q : Pt) (radius : ℚ),
      kd_nearest_range (createKDTree pts) q radius = [] →
        nearestMatch (createKDTree pts) q radius = (-1, -1) ∧
        (0 ≤ radius → ∀ e ∈ withIdx 0 pts, ¬ sqDist e.2 q < radius * radius)) ∧
    (∀ (pts : List Pt) (q : Pt) (radius : ℚ), 0 ≤ radius →
      kd_nearest_range (createKDTree pts) q radius ≠ [] →
        ∃ e ∈ withIdx 0 pts,
          nearestMatch (createKDTree pts) q radius = ((e.1 : ℤ), sqDist e.2 q) ∧
          sqDist e.2 q ≤ radius * radius ∧
          ∀ e2 ∈ withIdx 0 pts, sqDist e2.2 q < radius * radius →
            sqDist e.2 q ≤ sqDist e2.2 q) ∧
    (∀ (pts : List Pt) (q : Pt) (radius : ℚ) (j : ℕ), 0 < radius →
      (j, q) ∈ withIdx 0 pts →
      (∀ e ∈ withIdx 0 pts, e.2 = q → e.1 = j) →
      nearestMatch (createKDTree pts) q radius = ((j : ℤ), 0)) := by
  refine ⟨?_, ?_, ?_⟩
  · intro pts q radius hres
    refine ⟨nearestMatch_empty pts q radius hres, ?_⟩
    intro hr e he hlt
    have := kd_nearest_range_complete hr he hlt
    rw [hres] at this
    simp at this
  · intro pts q radius hr hne
    obtain ⟨e, he, heq, hmin⟩ := nearestMatch_found pts q radius hne
    obtain ⟨hmem, hle⟩ := kd_nearest_range_sound he
    refine ⟨e, hmem, heq, hle, ?_⟩
    intro e2 he2 hlt2
    exact hmin e2 (kd_nearest_range_complete hr he2 hlt2)
  · intro pts q radius j hr hj huniq
    have hjq : (j, q) ∈ kd_nearest_range (createKDTree pts) q radius := by
      refine kd_nearest_range_complete (le_of_lt hr) hj ?_
      rw [show sqDist (j, q).2 q = 0 from sqDist_self q]
      exact mul_pos hr hr
    have hne : kd_nearest_range (createKDTree pts) q radius ≠ [] :=
      List.ne_nil_of_mem hjq
    obtain ⟨e, he, heq, hmin⟩ := nearestMatch_found pts q radius hne
    have hd0 : sqDist e.2 q = 0 := by
      have h1 := hmin (j, q) hjq
      rw [show sqDist (j, q).2 q = 0 from sqDist_self q] at h1
      exact le_antisymm h1 (sqDist_nonneg _ _)
    have heq2 : e.2 = q := eq_of_sqDist_nonpos (le_of_eq hd0)
    have hmem := (kd_nearest_range_sound he).1
    have hej : e.1 = j := huniq e hmem heq2
    rw [heq, hej, hd0]

/-- Witness for C5: a query exactly at the first index point of a two-point
index with radius 2 yields squared distance 0 and index 0. -/
theorem C5_witness :
    nearestMatch (createKDTree [Pt.mk 0 0, Pt.mk 3 4]) (Pt.mk 0 0) 2 = (0, 0) := by
  refine C5_nearest_match.2.2 [Pt.mk 0 0, Pt.mk 3 4] (Pt.mk 0 0) 2 0 (by norm_num)
    (of_decide_eq_true (by with_unfolding_all rfl)) ?_
  intro e he hq
  have hw : withIdx 0 [Pt.mk 0 0, Pt.mk 3 4] = [(0, Pt.mk 0 0), (1, Pt.mk 3 4)] := rfl
  rw [hw] at he
  rcases List.mem_cons.mp he with hc | hc
  · rw [hc]
  · rcases List.mem_cons.mp hc with hc2 | hc2
    · rw [hc2] at hq
      exact absurd hq (by decide)
    · simp at hc2

/-- C7, counterexample to the claim as stated: the new peak (0,0) lies within
radius 1 of the current peak (-1,0) (squared distance exactly 1 = radius²)
and the current peak is CONVERGED, yet it is not set to RUNNING, because the
boundary point is pruned from the range query. -/
theorem C7_counterexample :
    sqDist (Pt.mk 0 0) (Pt.mk (-1) 0) ≤ 1 * 1 ∧
    (1, Pt.mk 0 0) ∈ withIdx 0 [Pt.mk 0 5, Pt.mk 0 0] ∧
    runningIfHasNeighbors [Pt.mk (-1) 0] [Pt.mk 0 5, Pt.mk 0 0]
      (fun _ => CONVERGED) 1 0 = CONVERGED :=
  of_decide_eq_true (by with_unfolding_all rfl)

/-- C7 (amended): for every current peak `i` in range whose status is neither
RUNNING nor ERROR, the status is set to RUNNING exactly when the (pruned)
range query over the new-peak tree returns at least one result; this happens
whenever some new peak lies strictly within radius, and it implies some new
peak lies within radius (squared distance ≤ radius²) — a new peak at exactly
distance radius may be missed. Peaks whose status is RUNNING or ERROR, and
indices outside the current-peak range, are left unchanged. -/
theorem C7_running_neighbors :
    (∀ (cpts npts : List Pt) (st : ℕ → PeakStatus) (radius : ℚ) (i : ℕ),
      i < cpts.length → st i ≠ RUNNING → st i ≠ ERROR →
      ((runningIfHasNeighbors cpts npts st radius i = RUNNING ↔
          kd_nearest_range (createKDTree npts) (posAt cpts i) radius ≠ []) ∧
       ((0 ≤ radius ∧ ∃ e ∈ withIdx 0 npts, sqDist e.2 (posAt cpts i) < radius * radius) →
          runningIfHasNeighbors cpts npts st radius i = RUNNING) ∧
       (runningIfHasNeighbors cpts npts st radius i = RUNNING →
          ∃ e ∈ withIdx 0 npts, sqDist e.2 (posAt cpts i) ≤ radius * radius))) ∧
    (∀ (cpts npts : List Pt) (st : ℕ → PeakStatus) (radius : ℚ) (i : ℕ),
      (st i = RUNNING ∨ st i = ERROR ∨ cpts.length ≤ i) →
      runningIfHasNeighbors cpts npts st radius i = st i) := by
  constructor
  · intro cpts npts st radius i hi hR hE
    have hpt := (runningIfHasNeighbors_point cpts npts st radius i).1 hi
    rw [if_neg (by rintro (hc | hc); exacts [hR hc, hE hc])] at hpt
    have hiff : runningIfHasNeighbors cpts npts st radius i = RUNNING ↔
        kd_nearest_range (createKDTree npts) (posAt cpts i) radius ≠ [] := by
      rw [hpt]
      constructor
      · intro hrun
        by_cases hl : 0 < (kd_nearest_range (createKDTree npts) (posAt cpts i) radius).length
        · exact List.ne_nil_of_length_pos hl
        · rw [if_neg hl] at hrun
          exact absurd hrun hR
      · intro hne
        rw [if_pos (List.length_pos.mpr hne)]
    refine ⟨hiff, ?_, ?_⟩
    · rintro ⟨hr, e, he, hlt⟩
      exact hiff.mpr (List.ne_nil_of_mem (kd_nearest_range_complete hr he hlt))
    · intro hrun
      obtain ⟨e, he⟩ := List.exists_mem_of_ne_nil _ (hiff.mp hrun)
      obtain ⟨hmem, hle⟩ := kd_nearest_range_sound he
      exact ⟨e, hmem, hle⟩
  · intro cpts npts st radius i hcase
    rcases hcase with hc | hc | hc
    · by_cases hi : i < cpts.length
      · rw [(runningIfHasNeighbors_point cpts npts st radius i).1 hi, if_pos (Or.inl hc)]
      · exact (runningIfHasNeighbors_point cpts npts st radius i).2 (le_of_not_lt hi)
    · by_cases hi : i < cpts.length
      · rw [(runningIfHasNeighbors_point cpts npts st radius i).1 hi, if_pos (Or.inr hc)]
      · exact (runningIfHasNeighbors_point cpts npts st radius i).2 (le_of_not_lt hi)
    · exact (runningIfHasNeighbors_point cpts npts st radius i).2 hc

/-- Witness for C7: a CONVERGED current peak with a new peak strictly within
radius becomes RUNNING. -/
theorem C7_witness :
    runningIfHasNeighbors [Pt.mk 0 0] [Pt.mk 0 0] (fun _ => CONVERGED) 1 0 = RUNNING := by
  refine (C7_running_neighbors.1 [Pt.mk 0 0] [Pt.mk 0 0] (fun _ => CONVERGED) 1 0
    (by norm_num) (by simp) (by simp)).2.1 ?_
  exact ⟨by norm_num, (0, Pt.mk 0 0), by simp [withIdx],
    of_decide_eq_true (by with_unfolding_all rfl)⟩

/-- C2, counterexample to the claim as stated: three peaks with heights
0, 2, 1 at positions (0,0), (0,0), (-1,0) and r_removal = 1. Peak 1 is
strictly brighter than peak 2 and lies within r_removal of it (squared
distance exactly 1 = r_removal²), peak 2's removal-range query returns two
results (itself and the root), and peak 2 is not ERROR initially — the claim
then demands that peak 2 be marked ERROR, but `markDimmerPeaks` leaves it
RUNNING: the brighter peak sits at the pruning boundary and is missing from
the query result. -/
theorem C2_counterexample :
    (fun i => [(0 : ℚ), 2, 1].getD i 0) 2 < (fun i => [(0 : ℚ), 2, 1].getD i 0) 1 ∧
    sqDist (posAt [Pt.mk 0 0, Pt.mk 0 0, Pt.mk (-1) 0] 1)
      (posAt [Pt.mk 0 0, Pt.mk 0 0, Pt.mk (-1) 0] 2) ≤ 1 * 1 ∧
    2 ≤ (kd_nearest_range (createKDTree [Pt.mk 0 0, Pt.mk 0 0, Pt.mk (-1) 0])
      (posAt [Pt.mk 0 0, Pt.mk 0 0, Pt.mk (-1) 0] 2) 1).length ∧
    (fun _ : ℕ => RUNNING) 2 ≠ ERROR ∧
    (markDimmerPeaks [Pt.mk 0 0, Pt.mk 0 0, Pt.mk (-1) 0]
      (fun i => [(0 : ℚ), 2, 1].getD i 0) (fun _ => RUNNING) 1 (1 / 10)).1 2 = RUNNING :=
  of_decide_eq_true (by with_unfolding_all rfl)

/-- C2 (amended): per visited peak `i` that is not ERROR at visit time: if the
r_removal range query returns fewer than 2 results the visit changes nothing;
otherwise, if some peak among the query results is strictly brighter, peak i
is set to ERROR, the counter increments, and every other peak among the
r_neighbors query results whose status is CONVERGED flips to RUNNING (all
other peaks are untouched); if no query result is brighter the visit changes
nothing. The function returns exactly the number of peaks it set to ERROR.
For three peaks with heights 10, 5, 3 at mutual distance strictly below
r_removal, none initially ERROR, exactly the two dimmer peaks end up ERROR. -/
theorem C2_suppress_duplicates :
    (∀ (kd : KDTree) (pts : List Pt) (h : ℕ → ℚ) (rr rn : ℚ)
       (st : ℕ → PeakStatus) (rm i : ℕ),
      (st i = ERROR → markDimmerStep kd pts h rr rn (st, rm) i = (st, rm)) ∧
      (st i ≠ ERROR → (kd_nearest_range kd (posAt pts i) rr).length < 2 →
        markDimmerStep kd pts h rr rn (st, rm) i = (st, rm)) ∧
      (st i ≠ ERROR → ¬ (kd_nearest_range kd (posAt pts i) rr).length < 2 →
        ¬ (∃ e ∈ kd_nearest_range kd (posAt pts i) rr, h i < h e.1) →
        markDimmerStep kd pts h rr rn (st, rm) i = (st, rm)) ∧
      (st i ≠ ERROR → ¬ (kd_nearest_range kd (posAt pts i) rr).length < 2 →
        (∃ e ∈ kd_nearest_range kd (posAt pts i) rr, h i < h e.1) →
        (markDimmerStep kd pts h rr rn (st, rm) i).2 = rm + 1 ∧
        (markDimmerStep kd pts h rr rn (st, rm) i).1 i = ERROR ∧
        ∀ k, k ≠ i →
          (markDimmerStep kd pts h rr rn (st, rm) i).1 k =
            (if st k = CONVERGED ∧ k ∈ (kd_nearest_range kd (posAt pts i) rn).map Prod.fst
             then RUNNING else st k))) ∧
    (∀ (pts : List Pt) (h : ℕ → ℚ) (st : ℕ → PeakStatus) (rr rn : ℚ),
      (markDimmerPeaks pts h st rr rn).2 =
        (List.range pts.length).countP
          (fun i => decide ((markDimmerPeaks pts h st rr rn).1 i = ERROR ∧ st i ≠ ERROR))) ∧
    (∀ (p0 p1 p2 : Pt) (h : ℕ → ℚ) (st : ℕ → PeakStatus) (rr rn : ℚ), 0 < rr →
      h 0 = 10 → h 1 = 5 → h 2 = 3 →
      sqDist p0 p1 < rr * rr → sqDist p0 p2 < rr * rr → sqDist p1 p2 < rr * rr →
      st 0 ≠ ERROR → st 1 ≠ ERROR → st 2 ≠ ERROR →
      (markDimmerPeaks [p0, p1, p2] h st rr rn).1 0 ≠ ERROR ∧
      (markDimmerPeaks [p0, p1, p2] h st rr rn).1 1 = ERROR ∧
      (markDimmerPeaks [p0, p1, p2] h st rr rn).1 2 = ERROR) := by
  refine ⟨?_, markDimmerPeaks_count, markDimmer_three_peaks⟩
  intro kd pts h rr rn st rm i
  refine ⟨fun he => markDimmerStep_skip_error he,
    fun he hlen => markDimmerStep_skip_single he hlen,
    fun he hlen hnb => markDimmerStep_no_brighter he hnb, ?_⟩
  intro he hlen hb
  rw [markDimmerStep_marked he hlen hb]
  refine ⟨rfl, (flipConverged_error_iff _ _ i).mpr (Function.update_same _ _ _), ?_⟩
  intro k hk
  show flipConverged (kd_nearest_range kd (posAt pts i) rn) (Function.update st i ERROR) k = _
  rw [flipConverged_point, Function.update_noteq hk]

/-- Witness for C2: three concrete peaks with heights 10, 5, 3 within
r_removal = 3 of each other; the two dimmer ones end ERROR, the brightest
does not. -/
theorem C2_witness :
    (markDimmerPeaks [Pt.mk 0 0, Pt.mk 1 0, Pt.mk 0 1]
      (fun i => [(10 : ℚ), 5, 3].getD i 0) (fun _ => RUNNING) 3 3).1 1 = ERROR ∧
    (markDimmerPeaks [Pt.mk 0 0, Pt.mk 1 0, Pt.mk 0 1]
      (fun i => [(10 : ℚ), 5, 3].getD i 0) (fun _ => RUNNING) 3 3).1 2 = ERROR ∧
    (markDimmerPeaks [Pt.mk 0 0, Pt.mk 1 0, Pt.mk 0 1]
      (fun i => [(10 : ℚ), 5, 3].getD i 0) (fun _ => RUNNING) 3 3).1 0 ≠ ERROR := by
  have h := C2_suppress_duplicates.2.2 (Pt.mk 0 0) (Pt.mk 1 0) (Pt.mk 0 1)
    (fun i => [(10 : ℚ), 5, 3].getD i 0) (fun _ => RUNNING) 3 3 (by norm_num)
    rfl rfl rfl
    (of_decide_eq_true (by with_unfolding_all rfl))
    (of_decide_eq_true (by with_unfolding_all rfl))
    (of_decide_eq_true (by with_unfolding_all rfl))
    (by decide) (by decide) (by decide)
  exact ⟨h.2.1, h.2.2, h.1⟩

set_option maxHeartbeats 1000000 in
theorem markDimmer_error_neighbor (p0 p1 p2 : Pt) (h : ℕ → ℚ) (rr rn : ℚ)
    (hrr : 0 < rr) (h01 : h 1 < h 0) (h12 : h 2 < h 1)
    (d01 : sqDist p0 p1 < rr * rr) (d12 : sqDist p1 p2 < rr * rr)
    (d02 : ¬ sqDist p0 p2 ≤ rr * rr) :
    ((List.range 2).foldl
        (markDimmerStep (createKDTree [p0, p1, p2]) [p0, p1, p2] h rr rn)
        ((fun _ => RUNNING), 0)).1 1 = ERROR ∧
    (markDimmerPeaks [p0, p1, p2] h (fun _ => RUNNING) rr rn).1 2 = ERROR ∧
    (∀ e ∈ kd_nearest_range (createKDTree [p0, p1, p2]) p2 rr,
      h 2 < h e.1 → e.1 = 1) := by
  have hrr2 : (0 : ℚ) < rr * rr := mul_pos hrr hrr
  have hrrle : (0 : ℚ) ≤ rr := le_of_lt hrr
  have hW : withIdx 0 [p0, p1, p2] = [(0, p0), (1, p1), (2, p2)] := rfl
  have hq0 : posAt [p0, p1, p2] 0 = p0 := rfl
  have hq1 : posAt [p0, p1, p2] 1 = p1 := rfl
  have hq2 : posAt [p0, p1, p2] 2 = p2 := rfl
  set kd := createKDTree [p0, p1, p2] with hkd
  set st0 : ℕ → PeakStatus := fun _ => RUNNING with hst0
  have hm01 : (0, p0) ∈ kd_nearest_range kd p1 rr :=
    kd_nearest_range_complete hrrle (by rw [hW]; simp) d01
  have hm11 : (1, p1) ∈ kd_nearest_range kd p1 rr :=
    kd_nearest_range_complete hrrle (by rw [hW]; simp) (by rw [sqDist_self]; exact hrr2)
  have hm12 : (1, p1) ∈ kd_nearest_range kd p2 rr :=
    kd_nearest_range_complete hrrle (by rw [hW]; simp) d12
  have hm22 : (2, p2) ∈ kd_nearest_range kd p2 rr :=
    kd_nearest_range_complete hrrle (by rw [hW]; simp) (by rw [sqDist_self]; exact hrr2)
  have hlen1 : ¬ (kd_nearest_range kd (posAt [p0, p1, p2] 1) rr).length < 2 := by
    rw [hq1]; push_neg
    exact two_le_length_of_mem_ne hm01 hm11 (by simp)
  have hlen2 : ¬ (kd_nearest_range kd (posAt [p0, p1, p2] 2) rr).length < 2 := by
    rw [hq2]; push_neg
    exact two_le_length_of_mem_ne hm12 hm22 (by simp)
  have hnb0 : ¬ ∃ e ∈ kd_nearest_range kd (posAt [p0, p1, p2] 0) rr, h 0 < h e.1 := by
    rw [hq0]
    rintro ⟨e, he, hbr⟩
    obtain ⟨hs, hd⟩ := kd_nearest_range_sound he
    rw [hW] at hs
    rcases (by simpa using hs : e = (0, p0) ∨ e = (1, p1) ∨ e = (2, p2)) with hc | hc | hc
    · rw [hc] at hbr
      exact lt_irrefl _ hbr
    · rw [hc] at hbr
      exact absurd hbr (not_lt.mpr (le_of_lt h01))
    · rw [hc] at hd
      exact d02 (by rw [sqDist_comm]; exact hd)
  have hb1 : ∃ e ∈ kd_nearest_range kd (posAt [p0, p1, p2] 1) rr, h 1 < h e.1 := by
    rw [hq1]
    exact ⟨(0, p0), hm01, h01⟩
  have hb2 : ∃ e ∈ kd_nearest_range kd (posAt [p0, p1, p2] 2) rr, h 2 < h e.1 := by
    rw [hq2]
    exact ⟨(1, p1), hm12, h12⟩
  have hstep0 : markDimmerStep kd [p0, p1, p2] h rr rn (st0, 0) 0 = (st0, 0) :=
    markDimmerStep_no_brighter (by rw [hst0]; simp) hnb0
  set stA := flipConverged (kd_nearest_range kd (posAt [p0, p1, p2] 1) rn)
    (Function.update st0 1 ERROR) with hstA
  have hstep1 : markDimmerStep kd [p0, p1, p2] h rr rn (st0, 0) 1 = (stA, 1) :=
    markDimmerStep_marked (by rw [hst0]; simp) hlen1 hb1
  have hA1 : stA 1 = ERROR := by
    rw [hstA]
    exact (flipConverged_error_iff _ _ 1).mpr (Function.update_same _ _ _)
  have hA2 : stA 2 ≠ ERROR := by
    rw [hstA]
    intro hc
    have h2c := (flipConverged_error_iff _ _ 2).mp hc
    rw [Function.update_noteq (by norm_num) _ _] at h2c
    rw [hst0] at h2c
    simp at h2c
  have hfold2 : (List.range 2).foldl
      (markDimmerStep kd [p0, p1, p2] h rr rn) (st0, 0) =
        markDimmerStep kd [p0, p1, p2] h rr rn
          (markDimmerStep kd [p0, p1, p2] h rr rn (st0, 0) 0) 1 := rfl
  have hfoldA : (List.range 2).foldl
      (markDimmerStep kd [p0, p1, p2] h rr rn) (st0, 0) = (stA, 1) := by
    rw [hfold2, hstep0, hstep1]
  set stB := flipConverged (kd_nearest_range kd (posAt [p0, p1, p2] 2) rn)
    (Function.update stA 2 ERROR) with hstB
  have hstep2 : markDimmerStep kd [p0, p1, p2] h rr rn (stA, 1) 2 = (stB, 2) :=
    markDimmerStep_marked hA2 hlen2 hb2
  have hM : markDimmerPeaks [p0, p1, p2] h st0 rr rn =
      markDimmerStep kd [p0, p1, p2] h rr rn
        (markDimmerStep kd [p0, p1, p2] h rr rn
          (markDimmerStep kd [p0, p1, p2] h rr rn (st0, 0) 0) 1) 2 := rfl
  refine ⟨by rw [hfoldA]; exact hA1, ?_, ?_⟩
  · rw [hM, hstep0, hstep1, hstep2]
    rw [hstB]
    exact (flipConverged_error_iff _ _ 2).mpr (Function.update_same _ _ _)
  · intro e he hbr
    obtain ⟨hs, hd⟩ := kd_nearest_range_sound he
    rw [hW] at hs
    rcases (by simpa using hs : e = (0, p0) ∨ e = (1, p1) ∨ e = (2, p2)) with hc | hc | hc
    · rw [hc] at hd
      exact absurd hd d02
    · rw [hc]
    · rw [hc] at hbr
      exact absurd hbr (lt_irrefl _)

/-- C10: the brighter-neighbour test of `markDimmerPeaks` never reads the
neighbours' statuses: for a visited non-ERROR peak whose query has at least 2
results, the peak is marked (counter incremented, status set to ERROR) if and
only if some range-query result has strictly greater height — so two runs
from different status assignments make the same marking decision — and a
neighbour that was itself marked ERROR earlier in the same call still
suppresses: with heights h0 > h1 > h2, peaks 0,1 and 1,2 within r_removal but
0,2 not, peak 1 is ERROR after the first two visits, and visit 2 still marks
peak 2 ERROR although its only brighter in-range neighbour is peak 1. -/
theorem C10_height_only_suppression :
    (∀ (kd : KDTree) (pts : List Pt) (h : ℕ → ℚ) (rr rn : ℚ)
       (st : ℕ → PeakStatus) (rm i : ℕ),
      st i ≠ ERROR → ¬ (kd_nearest_range kd (posAt pts i) rr).length < 2 →
      (((markDimmerStep kd pts h rr rn (st, rm) i).2 = rm + 1 ↔
          ∃ e ∈ kd_nearest_range kd (posAt pts i) rr, h i < h e.1) ∧
        ((∃ e ∈ kd_nearest_range kd (posAt pts i) rr, h i < h e.1) →
          (markDimmerStep kd pts h rr rn (st, rm) i).1 i = ERROR))) ∧
    (∀ (kd : KDTree) (pts : List Pt) (h : ℕ → ℚ) (rr rn : ℚ)
       (st st' : ℕ → PeakStatus) (rm rm' i : ℕ),
      st i ≠ ERROR → st' i ≠ ERROR →
      ¬ (kd_nearest_range kd (posAt pts i) rr).length < 2 →
      ((markDimmerStep kd pts h rr rn (st, rm) i).2 = rm + 1 ↔
        (markDimmerStep kd pts h rr rn (st', rm') i).2 = rm' + 1)) ∧
    (∀ (p0 p1 p2 : Pt) (h : ℕ → ℚ) (rr rn : ℚ), 0 < rr →
      h 1 < h 0 → h 2 < h 1 →
      sqDist p0 p1 < rr * rr → sqDist p1 p2 < rr * rr →
      ¬ sqDist p0 p2 ≤ rr * rr →
      ((List.range 2).foldl
          (markDimmerStep (createKDTree [p0, p1, p2]) [p0, p1, p2] h rr rn)
          ((fun _ => RUNNING), 0)).1 1 = ERROR ∧
      (markDimmerPeaks [p0, p1, p2] h (fun _ => RUNNING) rr rn).1 2 = ERROR ∧
      (∀ e ∈ kd_nearest_range (createKDTree [p0, p1, p2]) p2 rr,
        h 2 < h e.1 → e.1 = 1)) := by
  have hdec : ∀ (kd : KDTree) (pts : List Pt) (h : ℕ → ℚ) (rr rn : ℚ)
      (st : ℕ → PeakStatus) (rm i : ℕ),
      st i ≠ ERROR → ¬ (kd_nearest_range kd (posAt pts i) rr).length < 2 →
      (((markDimmerStep kd pts h rr rn (st, rm) i).2 = rm + 1 ↔
          ∃ e ∈ kd_nearest_range kd (posAt pts i) rr, h i < h e.1) ∧
        ((∃ e ∈ kd_nearest_range kd (posAt pts i) rr, h i < h e.1) →
          (markDimmerStep kd pts h rr rn (st, rm) i).1 i = ERROR)) := by
    intro kd pts h rr rn st rm i he hlen
    constructor
    · constructor
      · intro hct
        by_contra hnb
        rw [markDimmerStep_no_brighter he hnb] at hct
        simp at hct
      · intro hb
        rw [markDimmerStep_marked he hlen hb]
    · intro hb
      rw [markDimmerStep_marked he hlen hb]
      exact (flipConverged_error_iff _ _ i).mpr (Function.update_same _ _ _)
  refine ⟨hdec, ?_, markDimmer_error_neighbor⟩
  intro kd pts h rr rn st st' rm rm' i he he' hlen
  rw [(hdec kd pts h rr rn st rm i he hlen).1, (hdec kd pts h rr rn st' rm' i he' hlen).1]

/-- Witness for C10: heights 10, 5, 3 at (0,0), (2,0), (4,0) with
r_removal = 3 — peak 1 is ERROR after two visits and peak 2 still ends
ERROR. -/
theorem C10_witness :
    ((List.range 2).foldl
        (markDimmerStep (createKDTree [Pt.mk 0 0, Pt.mk 2 0, Pt.mk 4 0])
          [Pt.mk 0 0, Pt.mk 2 0, Pt.mk 4 0] (fun i => [(10 : ℚ), 5, 3].getD i 0) 3 (1 / 2))
        ((fun _ => RUNNING), 0)).1 1 = ERROR ∧
    (markDimmerPeaks [Pt.mk 0 0, Pt.mk 2 0, Pt.mk 4 0]
      (fun i => [(10 : ℚ), 5, 3].getD i 0) (fun _ => RUNNING) 3 (1 / 2)).1 2 = ERROR := by
  have h := C10_height_only_suppression.2.2 (Pt.mk 0 0) (Pt.mk 2 0) (Pt.mk 4 0)
    (fun i => [(10 : ℚ), 5, 3].getD i 0) 3 (1 / 2) (by norm_num)
    (of_decide_eq_true (by with_unfolding_all rfl))
    (of_decide_eq_true (by with_unfolding_all rfl))
    (of_decide_eq_true (by with_unfolding_all rfl))
    (of_decide_eq_true (by with_unfolding_all rfl))
    (of_decide_eq_true (by with_unfolding_all rfl))
  exact ⟨h.1, h.2.1⟩

/-- C3 counterexample: in a 4×4 single-plane image with two equal pixels of
intensity 5 at (y,x) = (1,2) (flat offset 6) and (2,1) (flat offset 9),
radius 2 (so squared distance 2 ≤ rr = 4 puts each inside the other's search
disk), the spec claims the lexicographically largest, (2,1), is reported.
The comparison `yi <= cy && xi <= cx` is componentwise, not lexicographic:
(1,2) and (2,1) are incomparable, so each disqualifies the other at `>=` and
`isLocalMaxima` rejects BOTH candidates — the scan reports no local maxima
at all. -/
theorem C3_counterexample :
    isLocalMaxima (FlmData.mk 0 10 0 4 4 1 2 1 (fun _ => 0) (fun _ _ => 0)
        (fun _ j => if j = 6 ∨ j = 9 then 5 else 0)) 5 0 0 0 2 3 0 1 3 = false ∧
    isLocalMaxima (FlmData.mk 0 10 0 4 4 1 2 1 (fun _ => 0) (fun _ _ => 0)
        (fun _ j => if j = 6 ∨ j = 9 then 5 else 0)) 5 0 0 0 1 3 0 2 3 = false ∧
    (findLocalMaxima (FlmData.mk 0 10 0 4 4 1 2 1 (fun _ => 0) (fun _ _ => 0)
        (fun _ j => if j = 6 ∨ j = 9 then 5 else 0))).out = [] ∧
    ((1 : ℤ) - 2) * (1 - 2) + (2 - 1) * (2 - 1) ≤ ratTrunc ((2 : ℚ) * 2) :=
  of_decide_eq_true (by with_unfolding_all rfl)

/-- C3 (amended): a neighbour at (yi, xi) within the truncated squared radius
disqualifies the candidate at (cy, cx) at `> cur` when `yi ≤ cy` AND
`xi ≤ cx` componentwise (NOT lexicographically), and at `≥ cur` otherwise;
`isLocalMaxima` is true exactly when no in-range neighbour disqualifies; a
candidate is never disqualified by itself; an equal-intensity neighbour that
is componentwise ≤ the candidate never disqualifies it, but one that is not
componentwise ≤ always does. Consequently, among equal-intensity pixels
within radius, every pixel with a componentwise-incomparable equal peer is
rejected: it is NOT true that exactly the lexicographically largest
survives — a plateau may have no reported maximum at all. -/
theorem C3_tie_break :
    (∀ (d : FlmData) (cur : ℚ) (sz ez sy cy ey sx cx ex : ℤ),
      isLocalMaxima d cur sz ez sy cy ey sx cx ex = true ↔
        ∀ zi yi xi : ℤ, sz ≤ zi → zi ≤ ez → sy ≤ yi → yi ≤ ey → sx ≤ xi → xi ≤ ex →
          ¬ flmDisq d cur cy cx zi yi xi) ∧
    (∀ (d : FlmData) (cur : ℚ) (cy cx zi : ℤ),
      d.images zi (cy * d.xsize + cx) = cur → ¬ flmDisq d cur cy cx zi cy cx) ∧
    (∀ (d : FlmData) (cur : ℚ) (cy cx zi yi xi : ℤ),
      (xi - cx) * (xi - cx) + (yi - cy) * (yi - cy) ≤ ratTrunc (d.radius * d.radius) →
      ¬ (yi ≤ cy ∧ xi ≤ cx) → d.images zi (yi * d.xsize + xi) = cur →
      flmDisq d cur cy cx zi yi xi) ∧
    (∀ (d : FlmData) (cur : ℚ) (cy cx zi yi xi : ℤ),
      yi ≤ cy → xi ≤ cx → d.images zi (yi * d.xsize + xi) = cur →
      ¬ flmDisq d cur cy cx zi yi xi) := by
  refine ⟨isLocalMaxima_true_iff, ?_, ?_, ?_⟩
  · intro d cur cy cx zi himg hdq
    obtain ⟨_, hcase⟩ := hdq
    rcases hcase with ⟨_, _, hbr⟩ | ⟨hnot, _⟩
    · rw [himg] at hbr
      exact lt_irrefl _ hbr
    · exact hnot ⟨le_refl _, le_refl _⟩
  · intro d cur cy cx zi yi xi hrr hnot himg
    exact ⟨hrr, Or.inr ⟨hnot, le_of_eq himg.symm⟩⟩
  · intro d cur cy cx zi yi xi hy hx himg hdq
    obtain ⟨_, hcase⟩ := hdq
    rcases hcase with ⟨_, _, hbr⟩ | ⟨hnot, _⟩
    · rw [himg] at hbr
      exact lt_irrefl _ hbr
    · exact hnot ⟨hy, hx⟩

/-- Witness for C3: with equal pixels of intensity 5 at (1,1) and (2,2) and
radius 2, the incomparable direction disqualifies ((2,2) kills candidate
(1,1) is not this pair — here (1,1) ≤ (2,2) componentwise so it never
disqualifies candidate (2,2), while (2,2), not componentwise ≤ (1,1),
disqualifies candidate (1,1)). -/
theorem C3_witness :
    flmDisq (FlmData.mk 0 10 0 4 4 1 2 1 (fun _ => 0) (fun _ _ => 0)
      (fun _ _ => 5)) 5 1 1 0 2 2 ∧
    ¬ flmDisq (FlmData.mk 0 10 0 4 4 1 2 1 (fun _ => 0) (fun _ _ => 0)
      (fun _ _ => 5)) 5 2 2 0 1 1 :=
  ⟨C3_tie_break.2.2.1 _ 5 1 1 0 2 2
      (of_decide_eq_true (by with_unfolding_all rfl))
      (by omega)
      (of_decide_eq_true (by with_unfolding_all rfl)),
   C3_tie_break.2.2.2 _ 5 2 2 0 1 1 (by omega) (by omega)
      (of_decide_eq_true (by with_unfolding_all rfl))⟩

/-- C8 counterexample: with the caller-supplied cap `n_peaks = 0` on a 1×1
image whose only pixel (intensity 5, threshold 1) is a local maximum, the
scan writes that pixel's entry to the output arrays BEFORE testing the cap
(`np >= n_peaks` is checked only after the write), so one entry is written
although the cap is 0 — and the early return stores the cap 0 into
`flm_data->n_peaks`, which then disagrees with the 1 entry written. -/
theorem C8_counterexample :
    (findLocalMaxima (FlmData.mk 0 0 0 1 1 1 1 1 (fun _ => 0) (fun _ _ => 0)
        (fun _ _ => 5))).out.length = 1 ∧
    flmNPeaksOut (FlmData.mk 0 0 0 1 1 1 1 1 (fun _ => 0) (fun _ _ => 0)
        (fun _ _ => 5)) = 0 :=
  of_decide_eq_true (by with_unfolding_all rfl)

/-- C8 (amended): for every scan input with a POSITIVE cap `n_peaks ≥ 1`,
`findLocalMaxima` writes at most `n_peaks` entries, the value stored back in
`flm_data->n_peaks` equals the number of entries written (the early return
stores the cap, which at that point equals the count), and when the scan
halts early the written count equals the cap exactly. The cap test runs
after the write of each accepted peak, so with `n_peaks = 0` one entry can
still be written while 0 is reported. -/
theorem C8_peak_cap (d : FlmData) (hcap : 1 ≤ d.n_peaks) :
    (findLocalMaxima d).out.length ≤ d.n_peaks ∧
    flmNPeaksOut d = (findLocalMaxima d).out.length ∧
    ((findLocalMaxima d).halted = true →
      (findLocalMaxima d).out.length = d.n_peaks) := by
  obtain ⟨h1, h2, h3⟩ := findLocalMaxima_inv d hcap
  refine ⟨?_, ?_, ?_⟩
  · cases hh : (findLocalMaxima d).halted
    · have := h2 hh
      omega
    · have := h3 hh
      omega
  · unfold flmNPeaksOut
    dsimp only
    cases hh : (findLocalMaxima d).halted
    · simp only [Bool.false_eq_true, if_false]
      exact h1
    · simp only [if_true]
      have := h3 hh
      omega
  · intro hh
    have := h3 hh
    omega

/-- Witness for C8: a 1×1 image, one local maximum, cap 2 — one entry is
written, the count stored back is 1, and the scan does not halt early. -/
theorem C8_witness :
    (findLocalMaxima (FlmData.mk 0 2 0 1 1 1 1 1 (fun _ => 0) (fun _ _ => 0)
        (fun _ _ => 5))).out.length ≤
      (FlmData.mk 0 2 0 1 1 1 1 1 (fun _ => 0) (fun _ _ => 0)
        (fun _ _ => (5 : ℚ))).n_peaks ∧
    flmNPeaksOut (FlmData.mk 0 2 0 1 1 1 1 1 (fun _ => 0) (fun _ _ => 0)
        (fun _ _ => 5)) =
      (findLocalMaxima (FlmData.mk 0 2 0 1 1 1 1 1 (fun _ => 0) (fun _ _ => 0)
        (fun _ _ => 5))).out.length :=
  ⟨(C8_peak_cap (FlmData.mk 0 2 0 1 1 1 1 1 (fun _ => 0) (fun _ _ => 0)
      (fun _ _ => 5)) (by norm_num)).1,
   (C8_peak_cap (FlmData.mk 0 2 0 1 1 1 1 1 (fun _ => 0) (fun _ _ => 0)
      (fun _ _ => 5)) (by norm_num)).2.1⟩
